import Mathlib

/-!
Verification development for the browser-file-crypto library
(Time-File/browser-file-crypto).

The development shallowly embeds the library's whole-buffer codec
(src/encrypt.ts, src/decrypt.ts), its streaming chunked-AEAD engine
(src/stream.ts: deriveChunkIV, encryptChunk, decryptChunk,
createStreamHeader, parseStreamHeader, createEncryptStream,
createDecryptStream) and the auto-dispatch (encryptFileAuto) into pure
Lean functions over byte lists (`List Nat`, one entry per byte).

The host cryptographic primitives (crypto.subtle / PBKDF2 / AES-GCM and
the helpers in src/utils.ts that wrap them) are external collaborators of
the library; they are represented by the `Primitives` structure, which
records exactly the contract the library relies on: the AEAD output is
ciphertext plus a 16-byte tag, and decrypting an honestly produced
ciphertext with the same key and nonce returns the plaintext.  A concrete
executable instance `toyPrim` is provided so that every statement can be
evaluated on concrete inputs.

Randomness (generateSalt, generateIV in src/utils.ts) is modelled by
passing the generated 16-byte salt and 12-byte IV as explicit parameters;
theorems quantify over all values of the documented lengths.

JavaScript `DataView.setUint32 / getUint32` with littleEndian = true are
modelled by `leBytes4` / `leVal4` (in particular `setUint32` stores its
argument modulo 2^32, which `leBytes4` reproduces).  A TypeScript option
field that is checked for truthiness (`!!password`) is modelled as an
`Option (List Nat)` that is `some` exactly when the field is present and
truthy.
-/

namespace BrowserFileCrypto

/-- Little-endian 32-bit read at the head of a byte list
(DataView.getUint32(off, true) after slicing the buffer to `off`).
Out-of-range reads default to byte 0; the library only reads where at
least four bytes are available. -/
def leVal4 (b : List Nat) : Nat :=
  b.getD 0 0 + 256 * b.getD 1 0 + 65536 * b.getD 2 0 + 16777216 * b.getD 3 0

/-- Little-endian 32-bit write (DataView.setUint32(-, v, true)): the four
bytes stored for `v`, i.e. the little-endian digits of `v % 2^32`. -/
def leBytes4 (v : Nat) : List Nat :=
  [v % 256, v / 256 % 256, v / 65536 % 256, v / 16777216 % 256]

/-- `target.set(src)` on typed arrays (write `src` at offset 0 of
`target`, keeping the rest of `target`).  The library only calls it with
`src.length ≤ target.length`. -/
def setInto (target src : List Nat) : List Nat :=
  src.take target.length ++ target.drop src.length

/-- The error codes of CryptoError (src/errors.ts, docs/errors.md). -/
inductive CryptoErrorCode where
  | INVALID_INPUT
  | PASSWORD_REQUIRED
  | KEYFILE_REQUIRED
  | INVALID_PASSWORD
  | INVALID_KEYFILE
  | INVALID_ENCRYPTED_DATA
  | ENCRYPTION_FAILED
  | DECRYPTION_FAILED
  | DOWNLOAD_FAILED
  | UNSUPPORTED_FORMAT
deriving DecidableEq

/-- The host primitives consumed by the library (crypto.subtle via
src/utils.ts): PBKDF2 key derivation from password bytes and a salt, raw
key import, and the AES-256-GCM AEAD.  `enc k iv p` returns ciphertext
plus the 16-byte authentication tag; `dec` returns `none` when AEAD
verification fails.  The two laws are the Web Crypto contract the library
relies on: the AEAD output is 16 bytes longer than the plaintext, and
decryption inverts encryption under the same key and IV. -/
structure Primitives where
  deriveKey : List Nat → List Nat → List Nat
  importKey : List Nat → List Nat
  enc : List Nat → List Nat → List Nat → List Nat
  dec : List Nat → List Nat → List Nat → Option (List Nat)
  enc_length : ∀ k iv p, (enc k iv p).length = p.length + 16
  dec_enc : ∀ k iv p, dec k iv (enc k iv p) = some p

/-- Tag of the executable toy AEAD: 16 equal bytes derived from key, IV
and plaintext.  Used only to instantiate `Primitives` on concrete
inputs. -/
def toyTag (k iv p : List Nat) : List Nat :=
  List.replicate 16 ((k.sum + 2 * iv.sum + 3 * p.sum + 5 * p.length) % 256)

/-- Executable toy instance of the host primitives: encryption appends
the toy tag, decryption strips and checks it. -/
def toyPrim : Primitives where
  deriveKey := fun pw salt => pw ++ salt
  importKey := fun k => k
  enc := fun k iv p => p ++ toyTag k iv p
  dec := fun k iv c =>
    if 16 ≤ c.length then
      let p := c.take (c.length - 16)
      if c.drop (c.length - 16) = toyTag k iv p then some p else none
    else none
  enc_length := by
    intro k iv p
    simp [toyTag]
  dec_enc := by
    intro k iv p
    have h : (p ++ toyTag k iv p).length = p.length + 16 := by simp [toyTag]
    simp only [h]
    rw [if_pos (by omega)]
    have ht : p.length + 16 - 16 = p.length := by omega
    rw [ht, List.take_left, List.drop_left]
    simp

/-! ### Constants (the constants module, staged in src/src/keyfile.ts)

The constants module of the library is staged in src/src/keyfile.ts
(lines 232-336): marker bytes, format version, lengths and minimum
container sizes below are translated from it value by value.  Its
remaining constants (KEY_LENGTH, PBKDF2_ITERATIONS, KEYFILE_KEY_LENGTH,
ALGORITHM, HASH_ALGORITHM) parameterise the host AES-GCM / PBKDF2 calls,
which this development abstracts as the `Primitives` structure. -/

def ENCRYPTION_MARKER_PASSWORD : Nat := 0x01

def ENCRYPTION_MARKER_KEYFILE : Nat := 0x02

def ENCRYPTION_MARKER_PASSWORD_STREAM : Nat := 0x11

def ENCRYPTION_MARKER_KEYFILE_STREAM : Nat := 0x12

def STREAM_FORMAT_VERSION : Nat := 0x01

def SALT_LENGTH : Nat := 16

def IV_LENGTH : Nat := 12

def AUTH_TAG_LENGTH : Nat := 16

/-- src/src/keyfile.ts line 319:
1 (marker) + SALT_LENGTH + IV_LENGTH + AUTH_TAG_LENGTH = 45. -/
def MIN_ENCRYPTED_SIZE_PASSWORD : Nat :=
  1 + SALT_LENGTH + IV_LENGTH + AUTH_TAG_LENGTH

/-- src/src/keyfile.ts line 325:
1 (marker) + IV_LENGTH + AUTH_TAG_LENGTH = 29. -/
def MIN_ENCRYPTED_SIZE_KEYFILE : Nat :=
  1 + IV_LENGTH + AUTH_TAG_LENGTH

def DEFAULT_CHUNK_SIZE : Nat := 64 * 1024

/-- src/encrypt.ts: DEFAULT_STREAMING_THRESHOLD = 100 * 1024 * 1024. -/
def DEFAULT_STREAMING_THRESHOLD : Nat := 100 * 1024 * 1024

/-! ### Streaming engine (src/stream.ts) -/

/-- src/stream.ts deriveChunkIV: allocate a fresh 12-byte array, copy
`baseIV` into it, read its last 4 bytes as a little-endian uint32, XOR
with the chunk index (JavaScript `^` operates on the 32-bit patterns,
hence the `% 2^32`), and write the result back. -/
def deriveChunkIV (baseIV : List Nat) (chunkIndex : Nat) : List Nat :=
  let iv := setInto (List.replicate 12 0) baseIV
  let currentValue := leVal4 (iv.drop 8)
  iv.take 8 ++ leBytes4 (currentValue ^^^ chunkIndex % 4294967296)

/-- src/stream.ts encryptChunk: AEAD-encrypt one chunk under the IV
derived for its index and frame the result as
[4-byte LE length of ciphertext+tag] ++ ciphertext+tag. -/
def encryptChunk (A : Primitives) (key baseIV : List Nat) (chunkIndex : Nat)
    (chunk : List Nat) : List Nat :=
  let ciphertext := A.enc key (deriveChunkIV baseIV chunkIndex) chunk
  leBytes4 ciphertext.length ++ ciphertext

/-- src/stream.ts decryptChunk: AEAD-decrypt one (unframed) encrypted
chunk; any cipher failure is reported as DECRYPTION_FAILED. -/
def decryptChunk (A : Primitives) (key baseIV : List Nat) (chunkIndex : Nat)
    (encryptedChunk : List Nat) : Except CryptoErrorCode (List Nat) :=
  match A.dec key (deriveChunkIV baseIV chunkIndex) encryptedChunk with
  | some plaintext => .ok plaintext
  | none => .error .DECRYPTION_FAILED

/-- src/stream.ts createStreamHeader.  Password mode: marker 0x11,
version, chunk size (LE32), 16-byte salt, 12-byte base IV (34 bytes).
Keyfile mode: marker 0x12, version, chunk size, base IV (18 bytes).
The source writes the fields at fixed offsets of a 34- or 18-byte array;
with the generated lengths (salt 16, IV 12) that equals this
concatenation. -/
def createStreamHeader (isPassword : Bool) (chunkSize : Nat)
    (salt baseIV : List Nat) : List Nat :=
  if isPassword then
    ENCRYPTION_MARKER_PASSWORD_STREAM :: STREAM_FORMAT_VERSION ::
      (leBytes4 chunkSize ++ salt ++ baseIV)
  else
    ENCRYPTION_MARKER_KEYFILE_STREAM :: STREAM_FORMAT_VERSION ::
      (leBytes4 chunkSize ++ baseIV)

/-- Result of parsing a streaming header: isPassword, chunkSize, salt
(empty in keyfile mode, where the source returns null), baseIV,
headerSize. -/
structure ParsedHeader where
  isPassword : Bool
  chunkSize : Nat
  salt : List Nat
  baseIV : List Nat
  headerSize : Nat

/-- src/stream.ts parseStreamHeader: validate the marker and the format
version, read the chunk size, and slice out salt and base IV at the
documented offsets. -/
def parseStreamHeader (header : List Nat) : Except CryptoErrorCode ParsedHeader :=
  let marker := header.getD 0 0
  if marker ≠ ENCRYPTION_MARKER_PASSWORD_STREAM ∧
      marker ≠ ENCRYPTION_MARKER_KEYFILE_STREAM then
    .error .UNSUPPORTED_FORMAT
  else if header.getD 1 0 ≠ STREAM_FORMAT_VERSION then
    .error .UNSUPPORTED_FORMAT
  else
    let chunkSize := leVal4 (header.drop 2)
    if marker = ENCRYPTION_MARKER_PASSWORD_STREAM then
      .ok ⟨true, chunkSize, (header.drop 6).take 16, (header.drop 22).take 12, 34⟩
    else
      .ok ⟨false, chunkSize, [], (header.drop 6).take 12, 18⟩

/-- The `while (buffer.length >= chunkSize)` loop of the encrypt
transform: repeatedly slice `chunkSize` plaintext bytes off the front of
the buffer and emit the encrypted frame, incrementing the chunk index.
Returns (emitted bytes, remaining buffer, next chunk index).  The source
loop does not terminate for chunkSize = 0 (the library default is 65536
and the streaming API is used with chunkSize ≥ 1), so the recursion
guards on 0 < chunkSize. -/
def encDrain (A : Primitives) (key baseIV : List Nat) (chunkSize : Nat)
    (buffer : List Nat) (chunkIndex : Nat) : List Nat × List Nat × Nat :=
  if _h : 0 < chunkSize ∧ chunkSize ≤ buffer.length then
    let frame := encryptChunk A key baseIV chunkIndex (buffer.take chunkSize)
    let r := encDrain A key baseIV chunkSize (buffer.drop chunkSize) (chunkIndex + 1)
    (frame ++ r.1, r.2)
  else
    ([], buffer, chunkIndex)
termination_by buffer.length
decreasing_by simp only [List.length_drop]; omega

/-- One `transform(chunk, controller)` call of the encrypt stream:
append the fragment to the pending buffer, then drain complete chunks. -/
def encTransform (A : Primitives) (key baseIV : List Nat) (chunkSize : Nat)
    (st : List Nat × Nat) (frag : List Nat) : List Nat × (List Nat × Nat) :=
  let r := encDrain A key baseIV chunkSize (st.1 ++ frag) st.2
  (r.1, r.2)

/-- The `flush(controller)` of the encrypt stream: encrypt whatever
remains in the buffer as a final (possibly short) chunk. -/
def encFlush (A : Primitives) (key baseIV : List Nat) (st : List Nat × Nat) :
    List Nat :=
  if st.1 = [] then [] else encryptChunk A key baseIV st.2 st.1

/-- Feed a list of input fragments through the encrypt transform,
starting from state `st` (pending buffer, chunk index); concatenate
everything enqueued. -/
def encFeed (A : Primitives) (key baseIV : List Nat) (chunkSize : Nat) :
    List Nat × Nat → List (List Nat) → List Nat × (List Nat × Nat)
  | st, [] => ([], st)
  | st, frag :: frags =>
    let r := encTransform A key baseIV chunkSize st frag
    let rest := encFeed A key baseIV chunkSize r.2 frags
    (r.1 ++ rest.1, rest.2)

/-- src/stream.ts createEncryptStream composed with the header-first
emission of encryptFileStream: reject when neither credential is present,
derive or import the key, and return the header followed by the bytes
the transform stream emits for the given input fragments (transform calls
then flush).  The random salt and base IV generated by generateSalt /
generateIV are explicit parameters. -/
def createEncryptStreamRun (A : Primitives)
    (password keyData : Option (List Nat)) (chunkSize : Nat)
    (salt baseIV : List Nat) (frags : List (List Nat)) :
    Except CryptoErrorCode (List Nat) :=
  if password = none ∧ keyData = none then
    .error .PASSWORD_REQUIRED
  else
    let isPassword := password.isSome
    let key :=
      match password with
      | some p => A.deriveKey p salt
      | none => A.importKey (keyData.getD [])
    let header := createStreamHeader isPassword chunkSize salt baseIV
    let r := encFeed A key baseIV chunkSize ([], 0) frags
    .ok (header ++ r.1 ++ encFlush A key baseIV r.2)

/-- State of the decrypt transform stream (src/stream.ts
createDecryptStream): pending buffer, whether the header has been
consumed, and once it has, the key, base IV and next chunk index. -/
structure DecState where
  buffer : List Nat
  headerParsed : Bool
  key : List Nat
  baseIV : List Nat
  chunkIndex : Nat
deriving DecidableEq

/-- The `while (buffer.length >= 4)` loop of the decrypt transform: read
the 4-byte LE frame length; stop (keeping the buffer) when the frame is
incomplete; otherwise decrypt the framed chunk at the current index and
continue.  Returns (plaintext emitted, remaining buffer, next index) or
the error of a failed chunk. -/
def decDrain (A : Primitives) (key baseIV : List Nat) (buffer : List Nat)
    (chunkIndex : Nat) : Except CryptoErrorCode (List Nat × List Nat × Nat) :=
  if _h4 : 4 ≤ buffer.length then
    let encryptedChunkSize := leVal4 (buffer.take 4)
    if _hc : 4 + encryptedChunkSize ≤ buffer.length then
      match decryptChunk A key baseIV chunkIndex
          ((buffer.drop 4).take encryptedChunkSize) with
      | .error e => .error e
      | .ok plaintext =>
        match decDrain A key baseIV (buffer.drop (4 + encryptedChunkSize))
            (chunkIndex + 1) with
        | .error e => .error e
        | .ok r => .ok (plaintext ++ r.1, r.2)
    else
      .ok ([], buffer, chunkIndex)
  else
    .ok ([], buffer, chunkIndex)
termination_by buffer.length
decreasing_by simp only [List.length_drop]; omega

/-- The chunk-processing phase of one decrypt transform call (the part
after the header is available): drain complete frames from the
accumulated buffer, carrying the parsed key, base IV and chunk index in
the resulting state. -/
def decChunkPhase (A : Primitives) (key baseIV : List Nat) (buffer : List Nat)
    (chunkIndex : Nat) : Except CryptoErrorCode (List Nat × DecState) :=
  match decDrain A key baseIV buffer chunkIndex with
  | .error e => .error e
  | .ok r => .ok (r.1, ⟨r.2.1, true, key, baseIV, r.2.2⟩)

/-- The header phase of one decrypt transform call, acting on the
accumulated buffer of a stream whose header has not yet been parsed
(`key0`, `baseIV0`, `chunkIndex0` are the untouched initial state
fields, passed through while waiting): wait until the marker determines
the header size and enough bytes are available, then parse the header,
check that the credential it demands is present, derive or import the
key, drop the header bytes and continue with the chunk phase. -/
def decHeaderPhase (A : Primitives) (password keyData : Option (List Nat))
    (key0 baseIV0 : List Nat) (chunkIndex0 : Nat) (buffer : List Nat) :
    Except CryptoErrorCode (List Nat × DecState) :=
  if buffer.length < 2 then
    .ok ([], ⟨buffer, false, key0, baseIV0, chunkIndex0⟩)
  else
    let marker := buffer.getD 0 0
    let minHeaderSize :=
      if marker = ENCRYPTION_MARKER_PASSWORD_STREAM then 34 else 18
    if buffer.length < minHeaderSize then
      .ok ([], ⟨buffer, false, key0, baseIV0, chunkIndex0⟩)
    else
      match parseStreamHeader (buffer.take minHeaderSize) with
      | .error e => .error e
      | .ok parsed =>
        if parsed.isPassword ∧ password = none then
          .error .PASSWORD_REQUIRED
        else if ¬parsed.isPassword ∧ keyData = none then
          .error .KEYFILE_REQUIRED
        else
          let key :=
            if parsed.isPassword then
              A.deriveKey (password.getD []) parsed.salt
            else
              A.importKey (keyData.getD [])
          decChunkPhase A key parsed.baseIV (buffer.drop parsed.headerSize) 0

/-- One `transform(chunk, controller)` call of the decrypt stream:
append the fragment to the pending buffer; before the header is parsed
run the header phase, afterwards the chunk phase. -/
def decTransform (A : Primitives) (password keyData : Option (List Nat))
    (st : DecState) (frag : List Nat) :
    Except CryptoErrorCode (List Nat × DecState) :=
  let buffer := st.buffer ++ frag
  if st.headerParsed then
    decChunkPhase A st.key st.baseIV buffer st.chunkIndex
  else
    decHeaderPhase A password keyData st.key st.baseIV st.chunkIndex buffer

/-- Feed a list of input fragments through the decrypt transform,
concatenating the emitted plaintext. -/
def decFeed (A : Primitives) (password keyData : Option (List Nat)) :
    DecState → List (List Nat) → Except CryptoErrorCode (List Nat × DecState)
  | st, [] => .ok ([], st)
  | st, frag :: frags =>
    match decTransform A password keyData st frag with
    | .error e => .error e
    | .ok r =>
      match decFeed A password keyData r.2 frags with
      | .error e => .error e
      | .ok rest => .ok (r.1 ++ rest.1, rest.2)

/-- Initial state of the decrypt stream. -/
def initialDecState : DecState := ⟨[], false, [], [], 0⟩

/-- The `flush()` of the decrypt stream: leftover unconsumed bytes are an
INVALID_ENCRYPTED_DATA failure. -/
def decFlush (st : DecState) : Except CryptoErrorCode Unit :=
  if st.buffer.length > 0 then .error .INVALID_ENCRYPTED_DATA else .ok ()

/-- src/stream.ts createDecryptStream run on a fragment list: feed every
fragment through the transform, then flush; the result is the
concatenated plaintext or the first error raised. -/
def createDecryptStreamRun (A : Primitives)
    (password keyData : Option (List Nat)) (frags : List (List Nat)) :
    Except CryptoErrorCode (List Nat) :=
  match decFeed A password keyData initialDecState frags with
  | .error e => .error e
  | .ok r =>
    match decFlush r.2 with
    | .error e => .error e
    | .ok _ => .ok r.1

/-! ### Whole-buffer codec (src/encrypt.ts, src/decrypt.ts) -/

/-- src/encrypt.ts encryptFile: reject when neither credential is
present; with a keyfile (checked first, as in the source), emit
marker 0x02 ++ iv ++ AEAD output; with a password, emit
marker 0x01 ++ salt ++ iv ++ AEAD output.  Salt and IV are the random
values of generateSalt / generateIV. -/
def encryptFile (A : Primitives) (password keyData : Option (List Nat))
    (salt iv : List Nat) (data : List Nat) : Except CryptoErrorCode (List Nat) :=
  if password = none ∧ keyData = none then
    .error .PASSWORD_REQUIRED
  else
    match keyData with
    | some k =>
      .ok (ENCRYPTION_MARKER_KEYFILE :: (iv ++ A.enc (A.importKey k) iv data))
    | none =>
      match password with
      | some p =>
        .ok (ENCRYPTION_MARKER_PASSWORD ::
          (salt ++ (iv ++ A.enc (A.deriveKey p salt) iv data)))
      | none => .error .PASSWORD_REQUIRED

/-- src/decrypt.ts decryptWithPassword: enforce the minimum container
size, slice salt / IV / ciphertext at the documented offsets, derive the
key and decrypt; AEAD failure is INVALID_PASSWORD. -/
def decryptWithPassword (A : Primitives) (data : List Nat) (password : List Nat) :
    Except CryptoErrorCode (List Nat) :=
  if data.length < MIN_ENCRYPTED_SIZE_PASSWORD then
    .error .INVALID_ENCRYPTED_DATA
  else
    let salt := (data.drop 1).take SALT_LENGTH
    let iv := (data.drop (1 + SALT_LENGTH)).take IV_LENGTH
    let ciphertext := data.drop (1 + SALT_LENGTH + IV_LENGTH)
    match A.dec (A.deriveKey password salt) iv ciphertext with
    | some plaintext => .ok plaintext
    | none => .error .INVALID_PASSWORD

/-- src/decrypt.ts decryptWithKeyfile: enforce the minimum container
size, slice IV / ciphertext, import the key and decrypt; AEAD failure is
INVALID_KEYFILE. -/
def decryptWithKeyfile (A : Primitives) (data : List Nat) (keyData : List Nat) :
    Except CryptoErrorCode (List Nat) :=
  if data.length < MIN_ENCRYPTED_SIZE_KEYFILE then
    .error .INVALID_ENCRYPTED_DATA
  else
    let iv := (data.drop 1).take IV_LENGTH
    let ciphertext := data.drop (1 + IV_LENGTH)
    match A.dec (A.importKey keyData) iv ciphertext with
    | some plaintext => .ok plaintext
    | none => .error .INVALID_KEYFILE

/-- src/decrypt.ts decryptFile: empty input is INVALID_ENCRYPTED_DATA;
dispatch on the marker byte — password-whole and keyfile-whole require
their credential and go to the corresponding decryptor, the two
streaming markers delegate to the streaming decryptor with the whole
container as a single fragment (decryptStreamingFormat), and any other
marker is UNSUPPORTED_FORMAT. -/
def decryptFile (A : Primitives) (password keyData : Option (List Nat))
    (data : List Nat) : Except CryptoErrorCode (List Nat) :=
  if data.length < 1 then
    .error .INVALID_ENCRYPTED_DATA
  else
    let marker := data.getD 0 0
    if marker = ENCRYPTION_MARKER_PASSWORD then
      match password with
      | none => .error .PASSWORD_REQUIRED
      | some p => decryptWithPassword A data p
    else if marker = ENCRYPTION_MARKER_KEYFILE then
      match keyData with
      | none => .error .KEYFILE_REQUIRED
      | some k => decryptWithKeyfile A data k
    else if marker = ENCRYPTION_MARKER_PASSWORD_STREAM ∨
        marker = ENCRYPTION_MARKER_KEYFILE_STREAM then
      createDecryptStreamRun A password keyData [data]
    else
      .error .UNSUPPORTED_FORMAT

/-- src/encrypt.ts encryptFileAuto: with autoStreaming enabled, use the
streaming engine when the payload size is strictly greater than the
threshold (`file.size > streamingThreshold` in the source) and the
whole-buffer codec otherwise. -/
def encryptFileAuto (A : Primitives) (password keyData : Option (List Nat))
    (autoStreaming : Bool) (streamingThreshold chunkSize : Nat)
    (salt iv : List Nat) (data : List Nat) : Except CryptoErrorCode (List Nat) :=
  if password = none ∧ keyData = none then
    .error .PASSWORD_REQUIRED
  else if autoStreaming ∧ streamingThreshold < data.length then
    createEncryptStreamRun A password keyData chunkSize salt iv [data]
  else
    encryptFile A password keyData salt iv data

/-! ### Credentials

A credential in the sense of the spec: either a (truthy) password or a
keyfile key.  `password` / `keyData` give the option fields passed to the
library's functions. -/

inductive Cred where
  | pw (p : List Nat)
  | kf (k : List Nat)

def Cred.password : Cred → Option (List Nat)
  | .pw p => some p
  | .kf _ => none

def Cred.keyData : Cred → Option (List Nat)
  | .pw _ => none
  | .kf k => some k

/-- The plaintext chunking the encrypt engine performs: successive
`chunkSize`-byte slices, the last one possibly shorter; empty input gives
no chunks. -/
def chunksOf (chunkSize : Nat) (data : List Nat) : List (List Nat) :=
  if _h : 0 < chunkSize ∧ 0 < data.length then
    data.take chunkSize :: chunksOf chunkSize (data.drop chunkSize)
  else
    []
termination_by data.length
decreasing_by simp only [List.length_drop]; omega

/-- Map with an explicit starting index. -/
def mapWithIndex (f : Nat → List Nat → List Nat) : Nat → List (List Nat) → List (List Nat)
  | _, [] => []
  | i, c :: cs => f i c :: mapWithIndex f (i + 1) cs

/-- The key an operation with credential `c` uses, given the salt of the
container (derived for passwords, imported for keyfiles). -/
def credKey (A : Primitives) (c : Cred) (salt : List Nat) : List Nat :=
  match c with
  | .pw p => A.deriveKey p salt
  | .kf k => A.importKey k

/-! ### Byte-level lemmas -/

theorem getD_append_left (x y : List Nat) (n : Nat) (h : n < x.length) :
    (x ++ y).getD n 0 = x.getD n 0 := by
  simp [List.getD, List.getElem?_append, h]

theorem take_append_le (x y : List Nat) (n : Nat) (h : n ≤ x.length) :
    (x ++ y).take n = x.take n := by
  rw [List.take_append_eq_append_take]
  simp [Nat.sub_eq_zero_of_le h]

theorem drop_append_le (x y : List Nat) (n : Nat) (h : n ≤ x.length) :
    (x ++ y).drop n = x.drop n ++ y := by
  rw [List.drop_append_eq_append_drop]
  simp [Nat.sub_eq_zero_of_le h]

theorem leBytes4_length (v : Nat) : (leBytes4 v).length = 4 := rfl

theorem leVal4_leBytes4 (v : Nat) : leVal4 (leBytes4 v) = v % 4294967296 := by
  show v % 256 + 256 * (v / 256 % 256) + 65536 * (v / 65536 % 256) +
    16777216 * (v / 16777216 % 256) = v % 4294967296
  omega

theorem leVal4_append (x y : List Nat) (h : 4 ≤ x.length) :
    leVal4 (x ++ y) = leVal4 x := by
  simp only [leVal4]
  rw [getD_append_left x y 0 (by omega), getD_append_left x y 1 (by omega),
    getD_append_left x y 2 (by omega), getD_append_left x y 3 (by omega)]

theorem getD_lt_256 (b : List Nat) (n : Nat) (hb : ∀ x ∈ b, x < 256) :
    b.getD n 0 < 256 := by
  by_cases hn : n < b.length
  · rw [List.getD_eq_getElem _ _ hn]
    exact hb _ (List.getElem_mem hn)
  · rw [List.getD_eq_default]
    · omega
    · omega

theorem leVal4_lt (b : List Nat) (hb : ∀ x ∈ b, x < 256) :
    leVal4 b < 4294967296 := by
  have h0 := getD_lt_256 b 0 hb
  have h1 := getD_lt_256 b 1 hb
  have h2 := getD_lt_256 b 2 hb
  have h3 := getD_lt_256 b 3 hb
  simp only [leVal4]
  omega

/-! ### Encrypt-drain lemmas -/

theorem encDrain_stop (A : Primitives) (key baseIV : List Nat) (S : Nat)
    (b : List Nat) (i : Nat) (h : b.length < S) :
    encDrain A key baseIV S b i = ([], b, i) := by
  rw [encDrain]
  rw [dif_neg (by omega)]

theorem encDrain_step (A : Primitives) (key baseIV : List Nat) (S : Nat)
    (b : List Nat) (i : Nat) (hS : 0 < S) (h : S ≤ b.length) :
    encDrain A key baseIV S b i =
      (encryptChunk A key baseIV i (b.take S) ++
        (encDrain A key baseIV S (b.drop S) (i + 1)).1,
       (encDrain A key baseIV S (b.drop S) (i + 1)).2) := by
  rw [encDrain]
  rw [dif_pos ⟨hS, h⟩]

theorem encDrain_buffer_lt (A : Primitives) (key baseIV : List Nat) (S : Nat)
    (hS : 0 < S) : ∀ n b i, b.length ≤ n →
    (encDrain A key baseIV S b i).2.1.length < S := by
  intro n
  induction n with
  | zero =>
    intro b i hb
    rw [encDrain_stop A key baseIV S b i (by omega)]
    show b.length < S
    omega
  | succ n ih =>
    intro b i hb
    by_cases h : S ≤ b.length
    · rw [encDrain_step A key baseIV S b i hS h]
      exact ih (b.drop S) (i + 1) (by simp only [List.length_drop]; omega)
    · rw [encDrain_stop A key baseIV S b i (by omega)]
      show b.length < S
      omega

theorem encDrain_append (A : Primitives) (key baseIV : List Nat) (S : Nat)
    (hS : 0 < S) : ∀ n b, b.length ≤ n → ∀ t i,
    encDrain A key baseIV S (b ++ t) i =
      ((encDrain A key baseIV S b i).1 ++
        (encDrain A key baseIV S ((encDrain A key baseIV S b i).2.1 ++ t)
          (encDrain A key baseIV S b i).2.2).1,
       (encDrain A key baseIV S ((encDrain A key baseIV S b i).2.1 ++ t)
         (encDrain A key baseIV S b i).2.2).2) := by
  intro n
  induction n with
  | zero =>
    intro b hb t i
    have hbnil : b = [] := List.length_eq_zero.mp (by omega)
    subst hbnil
    rw [encDrain_stop A key baseIV S [] i (by omega)]
    simp
  | succ n ih =>
    intro b hb t i
    by_cases h : S ≤ b.length
    · have htake : (b ++ t).take S = b.take S := take_append_le b t S h
      have hdrop : (b ++ t).drop S = b.drop S ++ t := drop_append_le b t S h
      rw [encDrain_step A key baseIV S (b ++ t) i hS
        (by simp only [List.length_append]; omega)]
      rw [htake, hdrop]
      rw [ih (b.drop S) (by simp only [List.length_drop]; omega) t (i + 1)]
      rw [encDrain_step A key baseIV S b i hS h]
      simp [List.append_assoc]
    · rw [encDrain_stop A key baseIV S b i (by omega)]
      simp

/-- Feeding the fragments one by one and flushing emits the same bytes
as draining their concatenation and flushing: the encrypt engine is
invariant under fragment splitting. -/
theorem encFeed_flatten (A : Primitives) (key baseIV : List Nat) (S : Nat)
    (hS : 0 < S) : ∀ frags b i, b.length < S →
    (encFeed A key baseIV S (b, i) frags).1 ++
      encFlush A key baseIV (encFeed A key baseIV S (b, i) frags).2 =
    (encDrain A key baseIV S (b ++ frags.flatten) i).1 ++
      encFlush A key baseIV (encDrain A key baseIV S (b ++ frags.flatten) i).2 := by
  intro frags
  induction frags with
  | nil =>
    intro b i hb
    rw [List.flatten_nil, List.append_nil]
    rw [encDrain_stop A key baseIV S b i hb]
    simp [encFeed]
  | cons f fs ih =>
    intro b i hb
    have hX : (encDrain A key baseIV S (b ++ f) i).2.1.length < S :=
      encDrain_buffer_lt A key baseIV S hS (b ++ f).length (b ++ f) i le_rfl
    have hIH := ih (encDrain A key baseIV S (b ++ f) i).2.1
      (encDrain A key baseIV S (b ++ f) i).2.2 hX
    rw [Prod.mk.eta] at hIH
    have hsplit := encDrain_append A key baseIV S hS (b ++ f).length (b ++ f)
      le_rfl fs.flatten i
    simp only [encFeed, encTransform, List.flatten_cons]
    rw [← List.append_assoc b f fs.flatten, hsplit]
    simp only [List.append_assoc]
    rw [hIH]

theorem chunksOf_stop (S : Nat) (P : List Nat) (h : ¬(0 < S ∧ 0 < P.length)) :
    chunksOf S P = [] := by
  rw [chunksOf]
  rw [dif_neg h]

theorem chunksOf_step (S : Nat) (P : List Nat) (hS : 0 < S) (hP : 0 < P.length) :
    chunksOf S P = P.take S :: chunksOf S (P.drop S) := by
  rw [chunksOf]
  rw [dif_pos ⟨hS, hP⟩]

theorem chunksOf_flatten (S : Nat) (hS : 0 < S) : ∀ n P, P.length ≤ n →
    (chunksOf S P).flatten = P := by
  intro n
  induction n with
  | zero =>
    intro P hP
    have : P = [] := List.length_eq_zero.mp (by omega)
    subst this
    rw [chunksOf_stop S [] (by simp)]
    rfl
  | succ n ih =>
    intro P hP
    by_cases h : 0 < P.length
    · rw [chunksOf_step S P hS h, List.flatten_cons]
      rw [ih (P.drop S) (by simp only [List.length_drop]; omega)]
      exact List.take_append_drop S P
    · rw [chunksOf_stop S P (by omega)]
      have : P = [] := List.length_eq_zero.mp (by omega)
      subst this
      rfl

theorem chunksOf_mem_length (S : Nat) (hS : 0 < S) : ∀ n P, P.length ≤ n →
    ∀ c ∈ chunksOf S P, c.length ≤ S := by
  intro n
  induction n with
  | zero =>
    intro P hP c hc
    have : P = [] := List.length_eq_zero.mp (by omega)
    subst this
    rw [chunksOf_stop S [] (by simp)] at hc
    simp at hc
  | succ n ih =>
    intro P hP c hc
    by_cases h : 0 < P.length
    · rw [chunksOf_step S P hS h] at hc
      rcases List.mem_cons.mp hc with h1 | h2
      · subst h1
        simp only [List.length_take]
        omega
      · exact ih (P.drop S) (by simp only [List.length_drop]; omega) c h2
    · rw [chunksOf_stop S P (by omega)] at hc
      simp at hc

/-- Draining a whole plaintext and flushing emits exactly the framed
AEAD encryptions of its `chunksOf` pieces, each under the IV derived
from the one shared base IV at its own index. -/
theorem encDrain_flush_chunks (A : Primitives) (key baseIV : List Nat)
    (S : Nat) (hS : 0 < S) : ∀ n P i, P.length ≤ n →
    (encDrain A key baseIV S P i).1 ++
      encFlush A key baseIV (encDrain A key baseIV S P i).2 =
    (mapWithIndex (encryptChunk A key baseIV) i (chunksOf S P)).flatten := by
  intro n
  induction n with
  | zero =>
    intro P i hP
    have : P = [] := List.length_eq_zero.mp (by omega)
    subst this
    rw [encDrain_stop A key baseIV S [] i (by omega)]
    rw [chunksOf_stop S [] (by simp)]
    simp [encFlush, mapWithIndex]
  | succ n ih =>
    intro P i hP
    by_cases h : S ≤ P.length
    · rw [encDrain_step A key baseIV S P i hS h]
      rw [chunksOf_step S P hS (by omega)]
      simp only [mapWithIndex, List.flatten_cons]
      rw [← ih (P.drop S) (i + 1) (by simp only [List.length_drop]; omega)]
      simp [List.append_assoc]
    · rw [encDrain_stop A key baseIV S P i (by omega)]
      by_cases hP0 : 0 < P.length
      · rw [chunksOf_step S P hS hP0]
        have hdrop : P.drop S = [] :=
          List.drop_eq_nil_of_le (by omega)
        have htake : P.take S = P := List.take_of_length_le (by omega)
        rw [hdrop, htake, chunksOf_stop S [] (by simp)]
        simp only [mapWithIndex, List.flatten_cons, List.flatten_nil,
          List.append_nil, List.nil_append]
        simp only [encFlush]
        rw [if_neg (by intro hc; rw [hc] at hP0; simp at hP0)]
      · have : P = [] := List.length_eq_zero.mp (by omega)
        subst this
        rw [chunksOf_stop S [] (by simp)]
        simp [encFlush, mapWithIndex]

theorem createStreamHeader_length (S : Nat) (salt iv : List Nat)
    (hsalt : salt.length = 16) (hiv : iv.length = 12) :
    (createStreamHeader true S salt iv).length = 34 ∧
    (createStreamHeader false S salt iv).length = 18 := by
  constructor
  · simp [createStreamHeader, leBytes4, hsalt, hiv]
  · simp [createStreamHeader, leBytes4, hiv]

theorem parseStreamHeader_create (S : Nat) (salt iv : List Nat)
    (hsalt : salt.length = 16) (hiv : iv.length = 12) :
    parseStreamHeader (createStreamHeader true S salt iv) =
      .ok ⟨true, S % 4294967296, salt, iv, 34⟩ ∧
    parseStreamHeader (createStreamHeader false S salt iv) =
      .ok ⟨false, S % 4294967296, [], iv, 18⟩ := by
  have hchunk : leVal4 (leBytes4 S ++ (salt ++ iv)) = S % 4294967296 := by
    rw [leVal4_append (leBytes4 S) (salt ++ iv) (by rw [leBytes4_length])]
    exact leVal4_leBytes4 S
  have hchunk2 : leVal4 (leBytes4 S ++ iv) = S % 4294967296 := by
    rw [leVal4_append (leBytes4 S) iv (by rw [leBytes4_length])]
    exact leVal4_leBytes4 S
  constructor
  · simp only [createStreamHeader, if_pos]
    simp only [parseStreamHeader, ENCRYPTION_MARKER_PASSWORD_STREAM,
      ENCRYPTION_MARKER_KEYFILE_STREAM, STREAM_FORMAT_VERSION, List.getD]
    norm_num
    have h4 : List.drop 4 (leBytes4 S ++ (salt ++ iv)) = salt ++ iv := by
      rw [show (4 : Nat) = (leBytes4 S).length from (leBytes4_length S).symm,
        List.drop_left]
    constructor
    · exact hchunk
    constructor
    · rw [h4, take_append_le salt iv 16 (by omega)]
      exact List.take_of_length_le (by omega)
    · have h20 : List.drop 20 (leBytes4 S ++ (salt ++ iv)) = iv := by
        rw [show (20 : Nat) = 4 + 16 from rfl, ← List.drop_drop, h4]
        rw [show (16 : Nat) = salt.length from hsalt.symm, List.drop_left]
      rw [h20]
      exact List.take_of_length_le (by omega)
  · simp only [createStreamHeader, if_neg]
    simp only [parseStreamHeader, ENCRYPTION_MARKER_PASSWORD_STREAM,
      ENCRYPTION_MARKER_KEYFILE_STREAM, STREAM_FORMAT_VERSION, List.getD]
    norm_num
    constructor
    · exact hchunk2
    · rw [show (4 : Nat) = (leBytes4 S).length from (leBytes4_length S).symm,
        List.drop_left]
      exact List.take_of_length_le (by omega)

/-- Normal form of a streaming encryption run: the header followed by
the framed chunk encryptions of the concatenated input, independent of
how the input was split into fragments. -/
theorem createEncryptStreamRun_eq (A : Primitives) (c : Cred) (S : Nat)
    (salt iv : List Nat) (frags : List (List Nat)) (hS : 0 < S) :
    createEncryptStreamRun A c.password c.keyData S salt iv frags =
      .ok (createStreamHeader c.password.isSome S salt iv ++
        (mapWithIndex (encryptChunk A (credKey A c salt) iv) 0
          (chunksOf S frags.flatten)).flatten) := by
  have key_eq : ∀ frags2 : List (List Nat),
      (encFeed A (credKey A c salt) iv S ([], 0) frags2).1 ++
        encFlush A (credKey A c salt) iv
          (encFeed A (credKey A c salt) iv S ([], 0) frags2).2 =
      (mapWithIndex (encryptChunk A (credKey A c salt) iv) 0
        (chunksOf S frags2.flatten)).flatten := by
    intro frags2
    have h1 := encFeed_flatten A (credKey A c salt) iv S hS frags2 [] 0
      (by simpa using hS)
    rw [List.nil_append] at h1
    rw [h1]
    exact encDrain_flush_chunks A (credKey A c salt) iv S hS
      frags2.flatten.length frags2.flatten 0 le_rfl
  cases c with
  | pw p =>
    simp only [Cred.password, Cred.keyData, credKey] at key_eq ⊢
    simp only [createEncryptStreamRun]
    rw [if_neg (by simp)]
    simp only [Option.isSome_some, Option.getD_some]
    rw [← key_eq frags]
    simp [List.append_assoc]
  | kf k =>
    simp only [Cred.password, Cred.keyData, credKey] at key_eq ⊢
    simp only [createEncryptStreamRun]
    rw [if_neg (by simp)]
    simp only [Option.isSome_none, Option.getD_some]
    rw [← key_eq frags]
    simp [List.append_assoc]

/-! ### Decrypt-drain lemmas -/

theorem decDrain_stop_short (A : Primitives) (key baseIV : List Nat)
    (b : List Nat) (i : Nat) (h : b.length < 4) :
    decDrain A key baseIV b i = .ok ([], b, i) := by
  rw [decDrain]
  rw [dif_neg (by omega)]

theorem decDrain_stop_incomplete (A : Primitives) (key baseIV : List Nat)
    (b : List Nat) (i : Nat) (h4 : 4 ≤ b.length)
    (h : b.length < 4 + leVal4 (b.take 4)) :
    decDrain A key baseIV b i = .ok ([], b, i) := by
  rw [decDrain]
  rw [dif_pos h4]
  rw [dif_neg (by omega)]

theorem decDrain_step (A : Primitives) (key baseIV : List Nat)
    (b : List Nat) (i : Nat) (h4 : 4 ≤ b.length)
    (hc : 4 + leVal4 (b.take 4) ≤ b.length) :
    decDrain A key baseIV b i =
      match decryptChunk A key baseIV i ((b.drop 4).take (leVal4 (b.take 4))) with
      | .error e => .error e
      | .ok plaintext =>
        match decDrain A key baseIV (b.drop (4 + leVal4 (b.take 4))) (i + 1) with
        | .error e => .error e
        | .ok r => .ok (plaintext ++ r.1, r.2) := by
  rw [decDrain]
  rw [dif_pos h4]
  rw [dif_pos hc]

/-- Composing the frame-drain over an appended buffer: draining `b ++ t`
is draining `b`, then draining the leftover of `b` together with `t`. -/
theorem decDrain_append (A : Primitives) (key baseIV : List Nat) :
    ∀ n b, b.length ≤ n → ∀ t i,
    decDrain A key baseIV (b ++ t) i =
      match decDrain A key baseIV b i with
      | .error e => .error e
      | .ok r =>
        match decDrain A key baseIV (r.2.1 ++ t) r.2.2 with
        | .error e => .error e
        | .ok r2 => .ok (r.1 ++ r2.1, r2.2) := by
  intro n
  induction n with
  | zero =>
    intro b hb t i
    have hbnil : b = [] := List.length_eq_zero.mp (by omega)
    subst hbnil
    rw [decDrain_stop_short A key baseIV [] i (by simp)]
    simp only [List.nil_append]
    cases hx : decDrain A key baseIV t i <;> simp
  | succ n ih =>
    intro b hb t i
    by_cases h4 : 4 ≤ b.length
    · by_cases hc : 4 + leVal4 (b.take 4) ≤ b.length
      · have htake : (b ++ t).take 4 = b.take 4 := take_append_le b t 4 h4
        have hdata : ((b ++ t).drop 4).take (leVal4 (b.take 4)) =
            (b.drop 4).take (leVal4 (b.take 4)) := by
          rw [drop_append_le b t 4 h4]
          rw [take_append_le (b.drop 4) t _ (by simp only [List.length_drop]; omega)]
        have hrest : (b ++ t).drop (4 + leVal4 (b.take 4)) =
            b.drop (4 + leVal4 (b.take 4)) ++ t :=
          drop_append_le b t _ (by omega)
        rw [decDrain_step A key baseIV (b ++ t) i
          (by simp only [List.length_append]; omega)
          (by rw [htake]; simp only [List.length_append]; omega)]
        rw [htake, hdata, hrest]
        rw [decDrain_step A key baseIV b i h4 hc]
        cases hd : decryptChunk A key baseIV i ((b.drop 4).take (leVal4 (b.take 4))) with
        | error e => simp
        | ok plaintext =>
          simp only
          rw [ih (b.drop (4 + leVal4 (b.take 4)))
            (by simp only [List.length_drop]; omega) t (i + 1)]
          cases hr1 : decDrain A key baseIV (b.drop (4 + leVal4 (b.take 4))) (i + 1) with
          | error e => simp
          | ok r =>
            simp only
            cases hr2 : decDrain A key baseIV (r.2.1 ++ t) r.2.2 <;>
              simp [List.append_assoc]
      · rw [decDrain_stop_incomplete A key baseIV b i h4 (by omega)]
        simp only
        cases hx : decDrain A key baseIV (b ++ t) i <;> simp
    · rw [decDrain_stop_short A key baseIV b i (by omega)]
      simp only
      cases hx : decDrain A key baseIV (b ++ t) i <;> simp

/-- Draining the concatenation of well-formed frames (the framed AEAD
encryptions of `chunks` starting at index `i`) succeeds, consumes
everything, and returns the concatenated chunks: each frame's length
prefix is read back exactly (the ciphertext stays below 2^32 bytes) and
each chunk decrypts by the AEAD law. -/
theorem decDrain_frames (A : Primitives) (key baseIV : List Nat) :
    ∀ chunks i, (∀ c ∈ chunks, c.length + 16 < 4294967296) →
    decDrain A key baseIV
      (mapWithIndex (encryptChunk A key baseIV) i chunks).flatten i =
    .ok (chunks.flatten, [], i + chunks.length) := by
  intro chunks
  induction chunks with
  | nil =>
    intro i _
    simp only [mapWithIndex, List.flatten_nil, List.flatten_nil]
    rw [decDrain_stop_short A key baseIV [] i (by simp)]
    simp
  | cons c cs ih =>
    intro i h
    have hct : (A.enc key (deriveChunkIV baseIV i) c).length = c.length + 16 :=
      A.enc_length key (deriveChunkIV baseIV i) c
    have hbound : c.length + 16 < 4294967296 := h c (by simp)
    simp only [mapWithIndex, List.flatten_cons, encryptChunk]
    rw [List.append_assoc]
    have hlen4 : (leBytes4 (A.enc key (deriveChunkIV baseIV i) c).length).length = 4 :=
      leBytes4_length _
    have htake4 : (leBytes4 (A.enc key (deriveChunkIV baseIV i) c).length ++
        (A.enc key (deriveChunkIV baseIV i) c ++
          (mapWithIndex (encryptChunk A key baseIV) (i + 1) cs).flatten)).take 4 =
        leBytes4 (A.enc key (deriveChunkIV baseIV i) c).length := by
      rw [take_append_le _ _ 4 (by rw [hlen4])]
      exact List.take_of_length_le (by rw [hlen4])
    have hval : leVal4 ((leBytes4 (A.enc key (deriveChunkIV baseIV i) c).length ++
        (A.enc key (deriveChunkIV baseIV i) c ++
          (mapWithIndex (encryptChunk A key baseIV) (i + 1) cs).flatten)).take 4) =
        (A.enc key (deriveChunkIV baseIV i) c).length := by
      rw [htake4, leVal4_leBytes4]
      omega
    rw [decDrain_step A key baseIV _ i
      (by simp only [List.length_append, hlen4]; omega)
      (by rw [hval]; simp only [List.length_append, hlen4]; omega)]
    rw [hval]
    have hdrop4 : (leBytes4 (A.enc key (deriveChunkIV baseIV i) c).length ++
        (A.enc key (deriveChunkIV baseIV i) c ++
          (mapWithIndex (encryptChunk A key baseIV) (i + 1) cs).flatten)).drop 4 =
        A.enc key (deriveChunkIV baseIV i) c ++
          (mapWithIndex (encryptChunk A key baseIV) (i + 1) cs).flatten := by
      rw [show (4 : Nat) =
        (leBytes4 (A.enc key (deriveChunkIV baseIV i) c).length).length from hlen4.symm]
      exact List.drop_left _ _
    rw [hdrop4]
    rw [List.take_left' rfl]
    have hdec : decryptChunk A key baseIV i (A.enc key (deriveChunkIV baseIV i) c) =
        .ok c := by
      simp [decryptChunk, A.dec_enc]
    rw [hdec]
    simp only
    have hdroprest : (leBytes4 (A.enc key (deriveChunkIV baseIV i) c).length ++
        (A.enc key (deriveChunkIV baseIV i) c ++
          (mapWithIndex (encryptChunk A key baseIV) (i + 1) cs).flatten)).drop
          (4 + (A.enc key (deriveChunkIV baseIV i) c).length) =
        (mapWithIndex (encryptChunk A key baseIV) (i + 1) cs).flatten := by
      rw [← List.append_assoc]
      rw [show 4 + (A.enc key (deriveChunkIV baseIV i) c).length =
        (leBytes4 (A.enc key (deriveChunkIV baseIV i) c).length ++
          A.enc key (deriveChunkIV baseIV i) c).length from by
          simp only [List.length_append, hlen4]]
      exact List.drop_left _ _
    rw [hdroprest]
    rw [ih (i + 1) (fun x hx => h x (by simp [hx]))]
    simp only [List.flatten_cons, List.length_cons]
    have hidx : i + 1 + cs.length = i + (cs.length + 1) := by omega
    rw [hidx]

/-! ### Transform composition -/

theorem getD_zero_take (b : List Nat) (n : Nat) (hn : 0 < n) (hb : 0 < b.length) :
    (b.take n).getD 0 0 = b.getD 0 0 := by
  cases b with
  | nil => simp at hb
  | cons x xs =>
    cases n with
    | zero => omega
    | succ m => simp [List.getD]

/-- A successful header parse pins the marker to one of the two
streaming markers and the header size to the size that marker
determines. -/
theorem parseStreamHeader_ok (h : List Nat) (parsed : ParsedHeader)
    (hp : parseStreamHeader h = .ok parsed) :
    parsed.headerSize =
      (if h.getD 0 0 = ENCRYPTION_MARKER_PASSWORD_STREAM then 34 else 18) := by
  unfold parseStreamHeader at hp
  by_cases hm1 : h.getD 0 0 = ENCRYPTION_MARKER_PASSWORD_STREAM
  · rw [if_neg (by push_neg; intro hne; exact absurd hm1 hne)] at hp
    by_cases hv : h.getD 1 0 = STREAM_FORMAT_VERSION
    · rw [if_neg (not_ne_iff.mpr hv)] at hp
      rw [if_pos hm1] at hp
      cases hp
      rw [if_pos hm1]
    · rw [if_pos hv] at hp
      cases hp
  · by_cases hm2 : h.getD 0 0 = ENCRYPTION_MARKER_KEYFILE_STREAM
    · rw [if_neg (by push_neg; intro _; exact hm2)] at hp
      by_cases hv : h.getD 1 0 = STREAM_FORMAT_VERSION
      · rw [if_neg (not_ne_iff.mpr hv)] at hp
        rw [if_neg hm1] at hp
        cases hp
        rw [if_neg hm1]
      · rw [if_pos hv] at hp
        cases hp
    · rw [if_pos ⟨hm1, hm2⟩] at hp
      cases hp

/-- Composing the chunk phase over an appended buffer. -/
theorem decChunkPhase_append (A : Primitives) (key baseIV : List Nat)
    (b t : List Nat) (i : Nat) :
    decChunkPhase A key baseIV (b ++ t) i =
      match decChunkPhase A key baseIV b i with
      | .error e => .error e
      | .ok r =>
        match decChunkPhase A key baseIV (r.2.buffer ++ t) r.2.chunkIndex with
        | .error e => .error e
        | .ok r2 => .ok (r.1 ++ r2.1, r2.2) := by
  simp only [decChunkPhase]
  rw [decDrain_append A key baseIV b.length b le_rfl t i]
  cases h1 : decDrain A key baseIV b i with
  | error e => simp
  | ok r =>
    simp only
    cases h2 : decDrain A key baseIV (r.2.1 ++ t) r.2.2 <;> simp

/-- Composing one decrypt transform call over an appended fragment:
feeding `f1 ++ f2` equals feeding `f1` and then `f2`, with the emitted
plaintext concatenated — the decrypt engine is invariant under fragment
splitting. -/
theorem decTransform_append (A : Primitives) (pw kd : Option (List Nat))
    (st : DecState) (f1 f2 : List Nat) :
    decTransform A pw kd st (f1 ++ f2) =
      match decTransform A pw kd st f1 with
      | .error e => .error e
      | .ok r =>
        match decTransform A pw kd r.2 f2 with
        | .error e => .error e
        | .ok r2 => .ok (r.1 ++ r2.1, r2.2) := by
  by_cases hp : st.headerParsed = true
  · simp only [decTransform, hp, if_true]
    rw [← List.append_assoc]
    rw [decChunkPhase_append A st.key st.baseIV (st.buffer ++ f1) f2 st.chunkIndex]
    cases h1 : decChunkPhase A st.key st.baseIV (st.buffer ++ f1) st.chunkIndex with
    | error e => simp
    | ok r =>
      have hr2 : r.2.headerParsed = true ∧ r.2.key = st.key ∧
          r.2.baseIV = st.baseIV := by
        simp only [decChunkPhase] at h1
        cases hd : decDrain A st.key st.baseIV (st.buffer ++ f1) st.chunkIndex with
        | error e => rw [hd] at h1; cases h1
        | ok q => rw [hd] at h1; cases h1; exact ⟨rfl, rfl, rfl⟩
      simp only [hr2.1, if_true, hr2.2.1, hr2.2.2]
  · have hp2 : st.headerParsed = false := by
      cases hhp : st.headerParsed
      · rfl
      · exact absurd hhp hp
    simp only [decTransform, hp2, Bool.false_eq_true, if_false]
    by_cases hwait : (st.buffer ++ f1).length < 2 ∨
        (st.buffer ++ f1).length <
          (if (st.buffer ++ f1).getD 0 0 = ENCRYPTION_MARKER_PASSWORD_STREAM
           then 34 else 18)
    · -- the first fragment leaves the stream still waiting for the header
      have hfirst : decHeaderPhase A pw kd st.key st.baseIV st.chunkIndex
          (st.buffer ++ f1) =
          .ok ([], ⟨st.buffer ++ f1, false, st.key, st.baseIV, st.chunkIndex⟩) := by
        by_cases h2 : (st.buffer ++ f1).length < 2
        · simp only [decHeaderPhase]
          rw [if_pos h2]
        · simp only [decHeaderPhase]
          rw [if_neg h2]
          rw [if_pos (by
            rcases hwait with hw | hw
            · exact absurd hw h2
            · exact hw)]
      rw [hfirst]
      simp only [Bool.false_eq_true, if_false]
      rw [← List.append_assoc]
      cases hx : decHeaderPhase A pw kd st.key st.baseIV st.chunkIndex
        ((st.buffer ++ f1) ++ f2) <;> simp
    · push_neg at hwait
      obtain ⟨h2, hmin⟩ := hwait
      have hfirst0 : 0 < (st.buffer ++ f1).length := by omega
      have hmarker : ((st.buffer ++ f1) ++ f2).getD 0 0 =
          (st.buffer ++ f1).getD 0 0 :=
        getD_append_left (st.buffer ++ f1) f2 0 hfirst0
      have hminle : (if (st.buffer ++ f1).getD 0 0 =
          ENCRYPTION_MARKER_PASSWORD_STREAM then 34 else 18) ≤
          (st.buffer ++ f1).length := hmin
      have htakemin : ((st.buffer ++ f1) ++ f2).take
          (if (st.buffer ++ f1).getD 0 0 = ENCRYPTION_MARKER_PASSWORD_STREAM
           then 34 else 18) =
          (st.buffer ++ f1).take
          (if (st.buffer ++ f1).getD 0 0 = ENCRYPTION_MARKER_PASSWORD_STREAM
           then 34 else 18) :=
        take_append_le (st.buffer ++ f1) f2 _ hminle
      have hlen12 : (st.buffer ++ f1).length ≤ (st.buffer ++ (f1 ++ f2)).length := by
        simp only [List.length_append]
        omega
      -- expand both sides
      simp only [decHeaderPhase]
      rw [List.append_assoc] at hmarker htakemin
      have hB2 : ¬(st.buffer ++ (f1 ++ f2)).length < 2 := by
        simp only [List.length_append] at h2 ⊢
        omega
      have hB2b : ¬(st.buffer ++ f1).length < 2 := by omega
      have hBmin : ¬(st.buffer ++ (f1 ++ f2)).length <
          (if (st.buffer ++ f1).getD 0 0 = ENCRYPTION_MARKER_PASSWORD_STREAM
           then 34 else 18) := not_lt.mpr (le_trans hminle hlen12)
      have hB1min : ¬(st.buffer ++ f1).length <
          (if (st.buffer ++ f1).getD 0 0 = ENCRYPTION_MARKER_PASSWORD_STREAM
           then 34 else 18) := not_lt.mpr hminle
      rw [if_neg hB2]
      rw [hmarker]
      rw [if_neg hBmin]
      rw [if_neg hB2b]
      rw [if_neg hB1min]
      rw [htakemin]
      cases hparse : parseStreamHeader ((st.buffer ++ f1).take
          (if (st.buffer ++ f1).getD 0 0 = ENCRYPTION_MARKER_PASSWORD_STREAM
           then 34 else 18)) with
      | error e => simp
      | ok parsed =>
        simp only
        have hhs : parsed.headerSize =
            (if (st.buffer ++ f1).getD 0 0 = ENCRYPTION_MARKER_PASSWORD_STREAM
             then 34 else 18) := by
          rw [parseStreamHeader_ok _ parsed hparse]
          by_cases hmm : (st.buffer ++ f1).getD 0 0 =
              ENCRYPTION_MARKER_PASSWORD_STREAM
          · rw [if_pos hmm]
            rw [if_pos (by
              rw [getD_zero_take _ _ (by omega) hfirst0, hmm])]
          · rw [if_neg hmm]
            rw [if_neg (by
              rw [getD_zero_take _ _ (by omega) hfirst0]
              exact hmm)]
        by_cases hcred1 : parsed.isPassword = true ∧ pw = none
        · rw [if_pos hcred1, if_pos hcred1]
        · rw [if_neg hcred1, if_neg hcred1]
          by_cases hcred2 : ¬parsed.isPassword = true ∧ kd = none
          · rw [if_pos hcred2, if_pos hcred2]
          · rw [if_neg hcred2, if_neg hcred2]
            have hdropsplit : (st.buffer ++ (f1 ++ f2)).drop parsed.headerSize =
                (st.buffer ++ f1).drop parsed.headerSize ++ f2 := by
              rw [← List.append_assoc]
              exact drop_append_le (st.buffer ++ f1) f2 _ (by rw [hhs]; exact hminle)
            rw [hdropsplit]
            rw [decChunkPhase_append]
            cases hc1 : decChunkPhase A
                (if parsed.isPassword = true then
                  A.deriveKey (pw.getD []) parsed.salt
                 else A.importKey (kd.getD []))
                parsed.baseIV ((st.buffer ++ f1).drop parsed.headerSize) 0 with
            | error e => simp
            | ok r =>
              have hr2 : r.2.headerParsed = true ∧
                  r.2.key = (if parsed.isPassword = true then
                    A.deriveKey (pw.getD []) parsed.salt
                   else A.importKey (kd.getD [])) ∧
                  r.2.baseIV = parsed.baseIV := by
                simp only [decChunkPhase] at hc1
                cases hd : decDrain A
                    (if parsed.isPassword = true then
                      A.deriveKey (pw.getD []) parsed.salt
                     else A.importKey (kd.getD []))
                    parsed.baseIV ((st.buffer ++ f1).drop parsed.headerSize) 0 with
                | error e => rw [hd] at hc1; cases hc1
                | ok q => rw [hd] at hc1; cases hc1; exact ⟨rfl, rfl, rfl⟩
              simp only [decTransform, hr2.1, if_true, hr2.2.1, hr2.2.2]

/-- Merging two adjacent fragments does not change a decrypt run. -/
theorem decFeed_merge (A : Primitives) (pw kd : Option (List Nat))
    (st : DecState) (f1 f2 : List Nat) (fs : List (List Nat)) :
    decFeed A pw kd st ((f1 ++ f2) :: fs) = decFeed A pw kd st (f1 :: f2 :: fs) := by
  simp only [decFeed]
  rw [decTransform_append A pw kd st f1 f2]
  cases h1 : decTransform A pw kd st f1 with
  | error e => simp
  | ok r =>
    simp only
    cases h2 : decTransform A pw kd r.2 f2 with
    | error e => simp
    | ok r2 =>
      simp only
      cases h3 : decFeed A pw kd r2.2 fs <;> simp [List.append_assoc]

/-- A nonempty decrypt run only depends on the concatenation of its
fragments. -/
theorem decFeed_flatten (A : Primitives) (pw kd : Option (List Nat)) :
    ∀ fs (st : DecState) (f : List Nat),
    decFeed A pw kd st (f :: fs) = decFeed A pw kd st [f ++ fs.flatten] := by
  intro fs
  induction fs with
  | nil =>
    intro st f
    rw [List.flatten_nil, List.append_nil]
  | cons g gs ih =>
    intro st f
    rw [← decFeed_merge A pw kd st f g gs]
    rw [ih st (f ++ g)]
    rw [List.flatten_cons, List.append_assoc]

/-- Fragment-split invariance of the decrypting stream as a whole. -/
theorem createDecryptStreamRun_flatten (A : Primitives)
    (pw kd : Option (List Nat)) (f : List Nat) (fs : List (List Nat)) :
    createDecryptStreamRun A pw kd (f :: fs) =
      createDecryptStreamRun A pw kd [f ++ fs.flatten] := by
  simp only [createDecryptStreamRun]
  rw [decFeed_flatten A pw kd fs initialDecState f]

/-- Decrypting a well-formed streaming container (header plus the framed
chunk encryptions of plaintext P under the matching credential) in a
single fragment yields P. -/
theorem createDecryptStreamRun_valid (A : Primitives) (c : Cred) (S : Nat)
    (salt iv P : List Nat) (hS : 1 ≤ S)
    (hbound : ∀ ch ∈ chunksOf S P, ch.length + 16 < 4294967296)
    (hsalt : salt.length = 16) (hiv : iv.length = 12) :
    createDecryptStreamRun A c.password c.keyData
      [createStreamHeader c.password.isSome S salt iv ++
        (mapWithIndex (encryptChunk A (credKey A c salt) iv) 0
          (chunksOf S P)).flatten] = .ok P := by
  have hframes := decDrain_frames A (credKey A c salt) iv (chunksOf S P) 0 hbound
  rw [chunksOf_flatten S (by omega) P.length P le_rfl] at hframes
  cases c with
  | pw p =>
    have hlen : (createStreamHeader true S salt iv).length = 34 :=
      (createStreamHeader_length S salt iv hsalt hiv).1
    have hparse := (parseStreamHeader_create S salt iv hsalt hiv).1
    simp only [Cred.password, Cred.keyData, Option.isSome_some, credKey] at hframes ⊢
    simp only [createDecryptStreamRun, decFeed, decTransform, initialDecState]
    simp only [Bool.false_eq_true, if_false, List.nil_append]
    have hmarker : (createStreamHeader true S salt iv ++
        (mapWithIndex (encryptChunk A (A.deriveKey p salt) iv) 0
          (chunksOf S P)).flatten).getD 0 0 = ENCRYPTION_MARKER_PASSWORD_STREAM := by
      rw [getD_append_left _ _ 0 (by omega)]
      simp [createStreamHeader, List.getD]
    simp only [decHeaderPhase]
    rw [if_neg (by
      simp only [List.length_append, hlen]
      omega)]
    rw [hmarker]
    rw [if_pos rfl]
    rw [if_neg (by
      simp only [List.length_append, hlen]
      omega)]
    rw [take_append_le _ _ 34 (by omega)]
    rw [show (34 : Nat) = (createStreamHeader true S salt iv).length from hlen.symm,
      List.take_length]
    rw [hparse]
    simp only
    rw [if_neg (by simp)]
    rw [if_neg (by simp)]
    simp only [if_pos, Option.getD_some]
    rw [show (createStreamHeader true S salt iv ++
        (mapWithIndex (encryptChunk A (A.deriveKey p salt) iv) 0
          (chunksOf S P)).flatten).drop 34 =
        (mapWithIndex (encryptChunk A (A.deriveKey p salt) iv) 0
          (chunksOf S P)).flatten from by
      rw [show (34 : Nat) = (createStreamHeader true S salt iv).length from hlen.symm]
      exact List.drop_left _ _]
    simp only [decChunkPhase]
    rw [hframes]
    simp [decFlush]
  | kf k =>
    have hlen : (createStreamHeader false S salt iv).length = 18 :=
      (createStreamHeader_length S salt iv hsalt hiv).2
    have hparse := (parseStreamHeader_create S salt iv hsalt hiv).2
    simp only [Cred.password, Cred.keyData, Option.isSome_none, credKey] at hframes ⊢
    simp only [createDecryptStreamRun, decFeed, decTransform, initialDecState]
    simp only [Bool.false_eq_true, if_false, List.nil_append]
    have hmarker : (createStreamHeader false S salt iv ++
        (mapWithIndex (encryptChunk A (A.importKey k) iv) 0
          (chunksOf S P)).flatten).getD 0 0 = ENCRYPTION_MARKER_KEYFILE_STREAM := by
      rw [getD_append_left _ _ 0 (by omega)]
      simp [createStreamHeader, List.getD]
    simp only [decHeaderPhase]
    rw [if_neg (by
      simp only [List.length_append, hlen]
      omega)]
    rw [hmarker]
    rw [show (if ENCRYPTION_MARKER_KEYFILE_STREAM = ENCRYPTION_MARKER_PASSWORD_STREAM
        then (34 : Nat) else 18) = 18 from by
      simp [ENCRYPTION_MARKER_KEYFILE_STREAM, ENCRYPTION_MARKER_PASSWORD_STREAM]]
    rw [if_neg (by
      simp only [List.length_append, hlen]
      omega)]
    rw [take_append_le _ _ 18 (by omega)]
    rw [show (18 : Nat) = (createStreamHeader false S salt iv).length from hlen.symm,
      List.take_length]
    rw [hparse]
    simp only
    rw [if_neg (by simp)]
    rw [if_neg (by simp)]
    simp only [Option.getD_some]
    rw [if_neg (by simp)]
    rw [show (createStreamHeader false S salt iv ++
        (mapWithIndex (encryptChunk A (A.importKey k) iv) 0
          (chunksOf S P)).flatten).drop 18 =
        (mapWithIndex (encryptChunk A (A.importKey k) iv) 0
          (chunksOf S P)).flatten from by
      rw [show (18 : Nat) = (createStreamHeader false S salt iv).length from hlen.symm]
      exact List.drop_left _ _]
    simp only [decChunkPhase]
    rw [hframes]
    simp [decFlush]

/-! ### Claim theorems -/

/-- C2: whole-buffer round trip.  For every plaintext byte sequence P
(including the empty one) and every credential C (password or keyfile
key), decryptFile applied to encryptFile's container with the same
credential returns exactly P.  The random salt and IV are quantified at
their generated lengths. -/
theorem C2_whole_roundtrip (A : Primitives) (c : Cred) (salt iv P : List Nat)
    (hsalt : salt.length = SALT_LENGTH) (hiv : iv.length = IV_LENGTH) :
    (encryptFile A c.password c.keyData salt iv P).bind
      (decryptFile A c.password c.keyData) = .ok P := by
  have hsalt16 : salt.length = 16 := hsalt
  have hiv12 : iv.length = 12 := hiv
  cases c with
  | pw p =>
    have hct : (A.enc (A.deriveKey p salt) iv P).length = P.length + 16 :=
      A.enc_length _ _ _
    simp only [Cred.password, Cred.keyData, encryptFile]
    rw [if_neg (by simp)]
    simp only [Except.bind]
    simp only [decryptFile]
    rw [if_neg (by simp)]
    rw [if_pos (by simp [List.getD, ENCRYPTION_MARKER_PASSWORD])]
    simp only [decryptWithPassword]
    rw [if_neg (by
      simp only [MIN_ENCRYPTED_SIZE_PASSWORD, SALT_LENGTH, IV_LENGTH,
        AUTH_TAG_LENGTH, List.length_cons, List.length_append]
      omega)]
    have hdrop1 : (ENCRYPTION_MARKER_PASSWORD ::
        (salt ++ (iv ++ A.enc (A.deriveKey p salt) iv P))).drop 1 =
        salt ++ (iv ++ A.enc (A.deriveKey p salt) iv P) := rfl
    have hsaltslice : ((ENCRYPTION_MARKER_PASSWORD ::
        (salt ++ (iv ++ A.enc (A.deriveKey p salt) iv P))).drop 1).take SALT_LENGTH =
        salt := by
      rw [hdrop1]
      rw [take_append_le salt _ SALT_LENGTH (by omega)]
      exact List.take_of_length_le (by simp [SALT_LENGTH]; omega)
    have hivslice : ((ENCRYPTION_MARKER_PASSWORD ::
        (salt ++ (iv ++ A.enc (A.deriveKey p salt) iv P))).drop
          (1 + SALT_LENGTH)).take IV_LENGTH = iv := by
      rw [show (1 + SALT_LENGTH) = SALT_LENGTH + 1 from by omega]
      rw [List.drop_succ_cons]
      rw [show (SALT_LENGTH : Nat) = salt.length from hsalt16.symm, List.drop_left]
      rw [take_append_le iv _ IV_LENGTH (by simp [IV_LENGTH]; omega)]
      exact List.take_of_length_le (by simp [IV_LENGTH]; omega)
    have hctslice : (ENCRYPTION_MARKER_PASSWORD ::
        (salt ++ (iv ++ A.enc (A.deriveKey p salt) iv P))).drop
          (1 + SALT_LENGTH + IV_LENGTH) =
        A.enc (A.deriveKey p salt) iv P := by
      rw [show (1 + SALT_LENGTH + IV_LENGTH) = (SALT_LENGTH + IV_LENGTH) + 1
        from by omega]
      rw [List.drop_succ_cons]
      rw [show (SALT_LENGTH + IV_LENGTH : Nat) = salt.length + iv.length from by
        rw [hsalt16, hiv12]
        decide]
      rw [← List.drop_drop]
      rw [List.drop_left]
      exact List.drop_left _ _
    rw [hsaltslice, hivslice, hctslice]
    rw [A.dec_enc]
  | kf k =>
    have hct : (A.enc (A.importKey k) iv P).length = P.length + 16 :=
      A.enc_length _ _ _
    simp only [Cred.password, Cred.keyData, encryptFile]
    rw [if_neg (by simp)]
    simp only [Except.bind]
    simp only [decryptFile]
    rw [if_neg (by simp)]
    rw [if_neg (by simp [List.getD, ENCRYPTION_MARKER_PASSWORD,
      ENCRYPTION_MARKER_KEYFILE])]
    rw [if_pos (by simp [List.getD, ENCRYPTION_MARKER_KEYFILE])]
    simp only [decryptWithKeyfile]
    rw [if_neg (by
      simp only [MIN_ENCRYPTED_SIZE_KEYFILE, IV_LENGTH, AUTH_TAG_LENGTH,
        List.length_cons, List.length_append]
      omega)]
    have hivslice : ((ENCRYPTION_MARKER_KEYFILE ::
        (iv ++ A.enc (A.importKey k) iv P)).drop 1).take IV_LENGTH = iv := by
      rw [show ((ENCRYPTION_MARKER_KEYFILE ::
        (iv ++ A.enc (A.importKey k) iv P)).drop 1) =
        iv ++ A.enc (A.importKey k) iv P from rfl]
      rw [take_append_le iv _ IV_LENGTH (by simp [IV_LENGTH]; omega)]
      exact List.take_of_length_le (by simp [IV_LENGTH]; omega)
    have hctslice : (ENCRYPTION_MARKER_KEYFILE ::
        (iv ++ A.enc (A.importKey k) iv P)).drop (1 + IV_LENGTH) =
        A.enc (A.importKey k) iv P := by
      rw [show (1 + IV_LENGTH) = IV_LENGTH + 1 from by omega]
      rw [List.drop_succ_cons]
      rw [show (IV_LENGTH : Nat) = iv.length from hiv12.symm, List.drop_left]
    rw [hivslice, hctslice]
    rw [A.dec_enc]

/-- C2 witness: concrete round trip of the three bytes [10, 20, 30]
under a password, evaluated on the executable toy primitives. -/
theorem C2_whole_roundtrip_witness :
    (encryptFile toyPrim (Cred.pw [7]).password (Cred.pw [7]).keyData
      (List.replicate 16 1) (List.replicate 12 2) [10, 20, 30]).bind
      (decryptFile toyPrim (Cred.pw [7]).password (Cred.pw [7]).keyData) =
      .ok [10, 20, 30] :=
  C2_whole_roundtrip toyPrim (Cred.pw [7]) (List.replicate 16 1)
    (List.replicate 12 2) [10, 20, 30] (by decide) (by decide)

/-- C4: per-chunk nonce derivation.  deriveChunkIV copies the 12-byte
base IV, XORs the little-endian uint32 formed by its last 4 bytes with
the chunk index, writes the result back into the last 4 bytes leaving
bytes 0..7 unchanged; and for a fixed base IV, distinct chunk indices
below 2^32 give distinct nonces. -/
theorem C4_deriveChunkIV (base : List Nat) (i j : Nat)
    (hlen : base.length = 12) (hbytes : ∀ b ∈ base, b < 256)
    (hi : i < 4294967296) (hj : j < 4294967296) :
    deriveChunkIV base i =
      base.take 8 ++ leBytes4 (leVal4 (base.drop 8) ^^^ i) ∧
    (i ≠ j → deriveChunkIV base i ≠ deriveChunkIV base j) := by
  have hset : setInto (List.replicate 12 0) base = base := by
    simp only [setInto, List.length_replicate]
    rw [List.take_of_length_le (by omega), hlen,
      List.drop_eq_nil_of_le (by simp), List.append_nil]
  have hform : ∀ m, m < 4294967296 → deriveChunkIV base m =
      base.take 8 ++ leBytes4 (leVal4 (base.drop 8) ^^^ m) := by
    intro m hm
    simp only [deriveChunkIV, hset]
    rw [Nat.mod_eq_of_lt hm]
  have hx : leVal4 (base.drop 8) < 4294967296 :=
    leVal4_lt _ (fun b hb => hbytes b (List.mem_of_mem_drop hb))
  refine ⟨hform i hi, ?_⟩
  intro hij heq
  apply hij
  rw [hform i hi, hform j hj] at heq
  have htail : leBytes4 (leVal4 (base.drop 8) ^^^ i) =
      leBytes4 (leVal4 (base.drop 8) ^^^ j) :=
    List.append_cancel_left heq
  have hv : (leVal4 (base.drop 8) ^^^ i) % 4294967296 =
      (leVal4 (base.drop 8) ^^^ j) % 4294967296 := by
    rw [← leVal4_leBytes4, ← leVal4_leBytes4, htail]
  have h232 : (4294967296 : Nat) = 2 ^ 32 := by norm_num
  have hxi : leVal4 (base.drop 8) ^^^ i < 4294967296 := by
    rw [h232]
    exact Nat.xor_lt_two_pow (by omega) (by omega)
  have hxj : leVal4 (base.drop 8) ^^^ j < 4294967296 := by
    rw [h232]
    exact Nat.xor_lt_two_pow (by omega) (by omega)
  rw [Nat.mod_eq_of_lt hxi, Nat.mod_eq_of_lt hxj] at hv
  have hfin := congrArg (fun t => leVal4 (base.drop 8) ^^^ t) hv
  simp only at hfin
  rw [Nat.xor_cancel_left, Nat.xor_cancel_left] at hfin
  exact hfin

/-- C4 witness: indices 0 and 1 over the all-zero base IV. -/
theorem C4_deriveChunkIV_witness :
    deriveChunkIV (List.replicate 12 0) 0 =
      (List.replicate 12 0).take 8 ++
        leBytes4 (leVal4 ((List.replicate 12 0).drop 8) ^^^ 0) ∧
    (0 ≠ 1 → deriveChunkIV (List.replicate 12 0) 0 ≠
      deriveChunkIV (List.replicate 12 0) 1) :=
  C4_deriveChunkIV (List.replicate 12 0) 0 1 (by decide) (by decide)
    (by norm_num) (by norm_num)

/-- C5: wrong credential on whole containers.  Whenever the single AEAD
decrypt call over the components the container determines fails, a
password-marked container yields INVALID_PASSWORD and a keyfile-marked
container yields INVALID_KEYFILE; the error does not depend on why the
AEAD call failed (wrong key and tampered ciphertext are
indistinguishable: the hypothesis only says the call failed).  The
result holds for every value of the other, unused credential option. -/
theorem C5_wrong_credential_whole (A : Primitives) (p k : List Nat)
    (pwOther kdOther : Option (List Nat)) (data : List Nat) :
    (data.getD 0 0 = ENCRYPTION_MARKER_PASSWORD →
      MIN_ENCRYPTED_SIZE_PASSWORD ≤ data.length →
      A.dec (A.deriveKey p ((data.drop 1).take SALT_LENGTH))
        ((data.drop (1 + SALT_LENGTH)).take IV_LENGTH)
        (data.drop (1 + SALT_LENGTH + IV_LENGTH)) = none →
      decryptFile A (some p) kdOther data = .error .INVALID_PASSWORD) ∧
    (data.getD 0 0 = ENCRYPTION_MARKER_KEYFILE →
      MIN_ENCRYPTED_SIZE_KEYFILE ≤ data.length →
      A.dec (A.importKey k) ((data.drop 1).take IV_LENGTH)
        (data.drop (1 + IV_LENGTH)) = none →
      decryptFile A pwOther (some k) data = .error .INVALID_KEYFILE) := by
  constructor
  · intro hm hlen hdec
    have hlen45 : 45 ≤ data.length := hlen
    simp only [decryptFile]
    rw [if_neg (show ¬data.length < 1 by omega)]
    rw [if_pos hm]
    simp only [decryptWithPassword]
    rw [if_neg (not_lt.mpr hlen)]
    rw [hdec]
  · intro hm hlen hdec
    have hlen29 : 29 ≤ data.length := hlen
    simp only [decryptFile]
    rw [if_neg (show ¬data.length < 1 by omega)]
    rw [if_neg (by
      rw [hm]
      decide)]
    rw [if_pos hm]
    simp only [decryptWithKeyfile]
    rw [if_neg (not_lt.mpr hlen)]
    rw [hdec]

/-- C5 witness: a 45-byte password-marked container whose AEAD tag does
not verify under the toy primitives is rejected as INVALID_PASSWORD. -/
theorem C5_wrong_credential_whole_witness :
    decryptFile toyPrim (some [1]) none
      (1 :: (List.replicate 16 0 ++ (List.replicate 12 0 ++ List.replicate 16 99)))
      = .error .INVALID_PASSWORD :=
  (C5_wrong_credential_whole toyPrim [1] [] none none
    (1 :: (List.replicate 16 0 ++ (List.replicate 12 0 ++ List.replicate 16 99)))).1
    (by decide) (by decide) (by decide)

/-- C6: structural rejection before any cryptographic attempt in
decryptFile: empty input, an unknown marker, and undersized
password-marked or keyfile-marked whole containers are rejected with the
stated errors.  The primitives structure A is universally quantified and
never consulted on these paths, which formalises that no AEAD decrypt
call is made. -/
theorem C6_structural_rejection (A : Primitives) (pw kd : Option (List Nat))
    (p k : List Nat) (data : List Nat) :
    (decryptFile A pw kd [] = .error .INVALID_ENCRYPTED_DATA) ∧
    (data ≠ [] →
      data.getD 0 0 ≠ ENCRYPTION_MARKER_PASSWORD →
      data.getD 0 0 ≠ ENCRYPTION_MARKER_KEYFILE →
      data.getD 0 0 ≠ ENCRYPTION_MARKER_PASSWORD_STREAM →
      data.getD 0 0 ≠ ENCRYPTION_MARKER_KEYFILE_STREAM →
      decryptFile A pw kd data = .error .UNSUPPORTED_FORMAT) ∧
    (data.getD 0 0 = ENCRYPTION_MARKER_PASSWORD →
      data.length < MIN_ENCRYPTED_SIZE_PASSWORD →
      decryptFile A (some p) kd data = .error .INVALID_ENCRYPTED_DATA) ∧
    (data.getD 0 0 = ENCRYPTION_MARKER_KEYFILE →
      data.length < MIN_ENCRYPTED_SIZE_KEYFILE →
      decryptFile A pw (some k) data = .error .INVALID_ENCRYPTED_DATA) := by
  refine ⟨?_, ?_, ?_, ?_⟩
  · simp [decryptFile]
  · intro hne hm1 hm2 hm3 hm4
    have hpos : 0 < data.length := List.length_pos.mpr hne
    simp only [decryptFile]
    rw [if_neg (show ¬data.length < 1 by omega)]
    rw [if_neg hm1]
    rw [if_neg hm2]
    rw [if_neg (not_or.mpr ⟨hm3, hm4⟩)]
  · intro hm hlt
    have hne : data ≠ [] := by
      intro hnil
      rw [hnil] at hm
      simp [List.getD, ENCRYPTION_MARKER_PASSWORD] at hm
    have hpos : 0 < data.length := List.length_pos.mpr hne
    simp only [decryptFile]
    rw [if_neg (show ¬data.length < 1 by omega)]
    rw [if_pos hm]
    simp only [decryptWithPassword]
    rw [if_pos hlt]
  · intro hm hlt
    have hne : data ≠ [] := by
      intro hnil
      rw [hnil] at hm
      simp [List.getD, ENCRYPTION_MARKER_KEYFILE] at hm
    have hpos : 0 < data.length := List.length_pos.mpr hne
    simp only [decryptFile]
    rw [if_neg (show ¬data.length < 1 by omega)]
    rw [if_neg (by
      rw [hm]
      decide)]
    rw [if_pos hm]
    simp only [decryptWithKeyfile]
    rw [if_pos hlt]

/-- C6 witness: the unknown marker 0x07 on a nonempty input is rejected
as UNSUPPORTED_FORMAT (the other three cases are closed under different
data, checked through the same theorem at [7]). -/
theorem C6_structural_rejection_witness :
    decryptFile toyPrim (some [1]) (some [2]) [7] =
      .error .UNSUPPORTED_FORMAT :=
  (C6_structural_rejection toyPrim (some [1]) (some [2]) [1] [2] [7]).2.1
    (by decide) (by decide) (by decide) (by decide) (by decide)

/-- C9 (amended): auto-size promotion boundary.  With autoStreaming
enabled, encryptFileAuto uses the whole-buffer codec when the payload
size is at or below the threshold and the streaming engine only when the
payload size is strictly greater (`file.size > streamingThreshold` in
the source); the default threshold is the fixed constant 100 MB. -/
theorem C9_auto_threshold (A : Primitives) (c : Cred)
    (threshold chunkSize : Nat) (salt iv P : List Nat) :
    (P.length ≤ threshold →
      encryptFileAuto A c.password c.keyData true threshold chunkSize salt iv P =
        encryptFile A c.password c.keyData salt iv P) ∧
    (threshold < P.length →
      encryptFileAuto A c.password c.keyData true threshold chunkSize salt iv P =
        createEncryptStreamRun A c.password c.keyData chunkSize salt iv [P]) ∧
    DEFAULT_STREAMING_THRESHOLD = 100 * 1024 * 1024 := by
  refine ⟨?_, ?_, rfl⟩
  · intro h
    simp only [encryptFileAuto]
    rw [if_neg (by cases c <;> simp [Cred.password, Cred.keyData])]
    rw [if_neg (fun hc => absurd hc.2 (not_lt.mpr h))]
  · intro h
    simp only [encryptFileAuto]
    rw [if_neg (by cases c <;> simp [Cred.password, Cred.keyData])]
    rw [if_pos ⟨by trivial, h⟩]

/-- C9 witness: a 3-byte payload with threshold 3 (at the boundary) is
encrypted by the whole-buffer codec, a 4-byte payload by the streaming
engine; the default threshold constant is 100 MB. -/
theorem C9_auto_threshold_witness :
    ([9, 9, 9].length ≤ 3 →
      encryptFileAuto toyPrim (Cred.pw [1]).password (Cred.pw [1]).keyData true 3 2
        (List.replicate 16 0) (List.replicate 12 0) [9, 9, 9] =
      encryptFile toyPrim (Cred.pw [1]).password (Cred.pw [1]).keyData
        (List.replicate 16 0) (List.replicate 12 0) [9, 9, 9]) ∧
    (3 < [9, 9, 9, 9].length →
      encryptFileAuto toyPrim (Cred.pw [1]).password (Cred.pw [1]).keyData true 3 2
        (List.replicate 16 0) (List.replicate 12 0) [9, 9, 9, 9] =
      createEncryptStreamRun toyPrim (Cred.pw [1]).password (Cred.pw [1]).keyData 2
        (List.replicate 16 0) (List.replicate 12 0) [[9, 9, 9, 9]]) ∧
    DEFAULT_STREAMING_THRESHOLD = 100 * 1024 * 1024 :=
  ⟨(C9_auto_threshold toyPrim (Cred.pw [1]) 3 2 (List.replicate 16 0)
      (List.replicate 12 0) [9, 9, 9]).1,
   (C9_auto_threshold toyPrim (Cred.pw [1]) 3 2 (List.replicate 16 0)
      (List.replicate 12 0) [9, 9, 9, 9]).2.1,
   (C9_auto_threshold toyPrim (Cred.pw [1]) 3 2 (List.replicate 16 0)
      (List.replicate 12 0) [9, 9, 9]).2.2⟩

/-- C9 counterexample: at a payload size exactly equal to the threshold
(3 bytes, threshold 3, autoStreaming on) the dispatcher uses the
whole-buffer codec (marker 0x01), not the streaming engine as the claim
("at or above the threshold") requires: the auto result equals the
whole-buffer container and differs from the streaming container. -/
theorem C9_counterexample :
    encryptFileAuto toyPrim (some [1]) none true 3 2 (List.replicate 16 0)
        (List.replicate 12 0) [9, 9, 9] =
      encryptFile toyPrim (some [1]) none (List.replicate 16 0)
        (List.replicate 12 0) [9, 9, 9] ∧
    encryptFileAuto toyPrim (some [1]) none true 3 2 (List.replicate 16 0)
        (List.replicate 12 0) [9, 9, 9] ≠
      createEncryptStreamRun toyPrim (some [1]) none 2 (List.replicate 16 0)
        (List.replicate 12 0) [[9, 9, 9]] := by
  have hauto : encryptFileAuto toyPrim (some [1]) none true 3 2
      (List.replicate 16 0) (List.replicate 12 0) [9, 9, 9] =
      encryptFile toyPrim (some [1]) none (List.replicate 16 0)
        (List.replicate 12 0) [9, 9, 9] := by
    simp only [encryptFileAuto]
    rw [if_neg (by simp)]
    rw [if_neg (by
      intro hc
      have := hc.2
      simp at this)]
  refine ⟨hauto, ?_⟩
  rw [hauto]
  have hstream := createEncryptStreamRun_eq toyPrim (Cred.pw [1]) 2
    (List.replicate 16 0) (List.replicate 12 0) [[9, 9, 9]] (by omega)
  simp only [Cred.password, Cred.keyData, Option.isSome_some] at hstream
  rw [hstream]
  intro heq
  have hlists := Except.ok.inj heq
  have hhead := congrArg (fun l => l.getD 0 0) hlists
  simp only [encryptFile] at hhead
  simp [List.getD, createStreamHeader, ENCRYPTION_MARKER_PASSWORD,
    ENCRYPTION_MARKER_PASSWORD_STREAM] at hhead

/-- C8: zero-length streaming payload.  Encrypting no input produces the
bare header (34 bytes in password mode, 18 in keyfile mode) with zero
chunk frames, and decrypting that header-only container with the same
credential yields the empty payload without error. -/
theorem C8_empty_payload (A : Primitives) (c : Cred) (S : Nat)
    (salt iv : List Nat) (hS : 1 ≤ S)
    (hsalt : salt.length = SALT_LENGTH) (hiv : iv.length = IV_LENGTH) :
    createEncryptStreamRun A c.password c.keyData S salt iv [] =
      .ok (createStreamHeader c.password.isSome S salt iv) ∧
    (createStreamHeader c.password.isSome S salt iv).length =
      (match c with | .pw _ => 34 | .kf _ => 18) ∧
    createDecryptStreamRun A c.password c.keyData
      [createStreamHeader c.password.isSome S salt iv] = .ok [] := by
  have hsalt16 : salt.length = 16 := hsalt
  have hiv12 : iv.length = 12 := hiv
  have hchunks : chunksOf S ([] : List Nat) = [] := chunksOf_stop S [] (by simp)
  refine ⟨?_, ?_, ?_⟩
  · rw [createEncryptStreamRun_eq A c S salt iv [] (by omega)]
    rw [show (([] : List (List Nat)).flatten) = ([] : List Nat) from rfl]
    rw [hchunks]
    simp [mapWithIndex]
  · cases c with
    | pw p =>
      simp only [Cred.password, Option.isSome_some]
      exact (createStreamHeader_length S salt iv hsalt16 hiv12).1
    | kf k =>
      simp only [Cred.password, Option.isSome_none]
      exact (createStreamHeader_length S salt iv hsalt16 hiv12).2
  · have hvalid := createDecryptStreamRun_valid A c S salt iv [] hS
      (by
        intro ch hch
        rw [hchunks] at hch
        simp at hch)
      hsalt16 hiv12
    rw [hchunks] at hvalid
    simp only [mapWithIndex, List.flatten_nil, List.append_nil] at hvalid
    exact hvalid

/-- C8 witness: chunk size 64, keyfile mode, on the executable toy
primitives. -/
theorem C8_empty_payload_witness :
    createEncryptStreamRun toyPrim (Cred.kf [5]).password (Cred.kf [5]).keyData 64
      (List.replicate 16 0) (List.replicate 12 0) [] =
      .ok (createStreamHeader (Cred.kf [5]).password.isSome 64
        (List.replicate 16 0) (List.replicate 12 0)) ∧
    (createStreamHeader (Cred.kf [5]).password.isSome 64
      (List.replicate 16 0) (List.replicate 12 0)).length =
      (match Cred.kf [5] with | .pw _ => 34 | .kf _ => 18) ∧
    createDecryptStreamRun toyPrim (Cred.kf [5]).password (Cred.kf [5]).keyData
      [createStreamHeader (Cred.kf [5]).password.isSome 64
        (List.replicate 16 0) (List.replicate 12 0)] = .ok [] :=
  C8_empty_payload toyPrim (Cred.kf [5]) 64 (List.replicate 16 0)
    (List.replicate 12 0) (by omega) (by decide) (by decide)

/-- C10: within one streaming operation the base IV is shared, byte for
byte, by every chunk; only the derived per-chunk nonce differs.  In this
pure embedding deriveChunkIV writes only into a freshly allocated
12-byte array (it is a function of the base IV value, which is passed
unchanged to every call), so the theorem exhibits the whole encrypt run
as the framed AEAD encryptions of the payload's chunks, each under
deriveChunkIV of the one base IV at its own index, and the decrypt drain
as consuming exactly those frames with the same shared base IV. -/
theorem C10_base_iv_shared (A : Primitives) (key baseIV : List Nat) (S : Nat)
    (P : List Nat) (hS : 1 ≤ S) :
    (∀ i chunk, encryptChunk A key baseIV i chunk =
      leBytes4 (A.enc key (deriveChunkIV baseIV i) chunk).length ++
        A.enc key (deriveChunkIV baseIV i) chunk) ∧
    (encFeed A key baseIV S ([], 0) [P]).1 ++
      encFlush A key baseIV (encFeed A key baseIV S ([], 0) [P]).2 =
      (mapWithIndex (encryptChunk A key baseIV) 0 (chunksOf S P)).flatten ∧
    (∀ chunks i, (∀ c ∈ chunks, c.length + 16 < 4294967296) →
      decDrain A key baseIV
        (mapWithIndex (encryptChunk A key baseIV) i chunks).flatten i =
      .ok (chunks.flatten, [], i + chunks.length)) := by
  refine ⟨fun i chunk => rfl, ?_, decDrain_frames A key baseIV⟩
  have h1 := encFeed_flatten A key baseIV S (by omega) [P] [] 0 (by simpa using hS)
  rw [List.nil_append] at h1
  rw [h1]
  rw [show ([P] : List (List Nat)).flatten = P from by simp]
  exact encDrain_flush_chunks A key baseIV S (by omega) P.length P 0 le_rfl

/-- C10 witness: a five-byte payload with chunk size 2. -/
theorem C10_base_iv_shared_witness :
    (∀ i chunk, encryptChunk toyPrim [5] (List.replicate 12 0) i chunk =
      leBytes4 (toyPrim.enc [5] (deriveChunkIV (List.replicate 12 0) i)
          chunk).length ++
        toyPrim.enc [5] (deriveChunkIV (List.replicate 12 0) i) chunk) ∧
    (encFeed toyPrim [5] (List.replicate 12 0) 2 ([], 0) [[1, 2, 3, 4, 5]]).1 ++
      encFlush toyPrim [5] (List.replicate 12 0)
        (encFeed toyPrim [5] (List.replicate 12 0) 2 ([], 0) [[1, 2, 3, 4, 5]]).2 =
      (mapWithIndex (encryptChunk toyPrim [5] (List.replicate 12 0)) 0
        (chunksOf 2 [1, 2, 3, 4, 5])).flatten ∧
    (∀ chunks i, (∀ c ∈ chunks, c.length + 16 < 4294967296) →
      decDrain toyPrim [5] (List.replicate 12 0)
        (mapWithIndex (encryptChunk toyPrim [5] (List.replicate 12 0)) i
          chunks).flatten i =
      .ok (chunks.flatten, [], i + chunks.length)) :=
  C10_base_iv_shared toyPrim [5] (List.replicate 12 0) 2 [1, 2, 3, 4, 5]
    (by omega)

/-- C7: trailing-garbage detection.  Whenever the decrypt stream's input
completes while unconsumed bytes remain in the pending buffer (a
truncated final frame, or stray bytes after the last complete chunk),
the stream fails with INVALID_ENCRYPTED_DATA instead of silently
ignoring those bytes. -/
theorem C7_trailing_garbage (A : Primitives) (pw kd : Option (List Nat))
    (frags : List (List Nat)) (out : List Nat) (st : DecState)
    (hfeed : decFeed A pw kd initialDecState frags = .ok (out, st))
    (hleft : st.buffer ≠ []) :
    createDecryptStreamRun A pw kd frags = .error .INVALID_ENCRYPTED_DATA := by
  simp only [createDecryptStreamRun]
  rw [hfeed]
  simp only [decFlush]
  rw [if_pos (List.length_pos.mpr hleft)]

/-- C7 witness: a keyfile streaming header followed by one stray byte is
rejected as INVALID_ENCRYPTED_DATA. -/
theorem C7_trailing_garbage_witness :
    createDecryptStreamRun toyPrim none (some [5])
      [[18, 1, 64, 0, 0, 0] ++ List.replicate 12 0 ++ [1]] =
      .error .INVALID_ENCRYPTED_DATA :=
  C7_trailing_garbage toyPrim none (some [5])
    [[18, 1, 64, 0, 0, 0] ++ List.replicate 12 0 ++ [1]] []
    ⟨[1], true, [5], List.replicate 12 0, 0⟩
    (by
      simp [decFeed, decTransform, decHeaderPhase, decChunkPhase, decDrain,
        parseStreamHeader, initialDecState, leVal4, leBytes4, List.getD,
        ENCRYPTION_MARKER_PASSWORD_STREAM, ENCRYPTION_MARKER_KEYFILE_STREAM,
        STREAM_FORMAT_VERSION, toyPrim])
    (by simp)

/-- C3 (code behavior at the failing inputs): in the streaming decryptor
of src/stream.ts, an AEAD verification failure is reported as
DECRYPTION_FAILED regardless of the chunk index.  First conjunct: a
password-mode container whose chunk-0 frame fails AEAD verification,
decrypted with the correct password, errors with DECRYPTION_FAILED — not
with the INVALID_PASSWORD that the claim, docs/errors.md (v1.1.1+) and
tests/integration/roundtrip.test.ts require.  Second conjunct: a
container with a valid chunk 0 and a failing chunk 1 errors with the
same DECRYPTION_FAILED, so the promised first-chunk / later-chunk
distinction does not exist in the code. -/
theorem C3_chunk_failure_code :
    createDecryptStreamRun toyPrim (some [1]) none
      [createStreamHeader true 2 (List.replicate 16 0) (List.replicate 12 0) ++
        [0, 0, 0, 0]] = .error .DECRYPTION_FAILED ∧
    createDecryptStreamRun toyPrim (some [1]) none
      [createStreamHeader true 2 (List.replicate 16 0) (List.replicate 12 0) ++
        ([18, 0, 0, 0, 7, 8] ++ List.replicate 16 56 ++ [0, 0, 0, 0])] =
      .error .DECRYPTION_FAILED := by
  constructor
  · simp [createDecryptStreamRun, decFeed, decTransform, decHeaderPhase,
      decChunkPhase, decDrain, decryptChunk, decFlush, parseStreamHeader,
      createStreamHeader, initialDecState, leVal4, leBytes4, List.getD,
      deriveChunkIV, setInto, toyTag,
      ENCRYPTION_MARKER_PASSWORD_STREAM, ENCRYPTION_MARKER_KEYFILE_STREAM,
      STREAM_FORMAT_VERSION, toyPrim]
  · simp [createDecryptStreamRun, decFeed, decTransform, decHeaderPhase,
      decChunkPhase, decDrain, decryptChunk, decFlush, parseStreamHeader,
      createStreamHeader, initialDecState, leVal4, leBytes4, List.getD,
      deriveChunkIV, setInto, toyTag,
      ENCRYPTION_MARKER_PASSWORD_STREAM, ENCRYPTION_MARKER_KEYFILE_STREAM,
      STREAM_FORMAT_VERSION, toyPrim]

/-- C1 (amended): streaming round trip with fragment-split invariance,
for every chunk size S with 1 ≤ S and S + 16 < 2^32 (so that every
frame's ciphertext length fits the 4-byte little-endian length prefix):
feeding any fragment split of P through the encrypt stream (header
first) and feeding any fragment split of the resulting container
through the decrypt stream with the same credential returns exactly P,
for both password and keyfile credentials and all generated salts and
base IVs. -/
theorem C1_stream_roundtrip (A : Primitives) (c : Cred) (S : Nat)
    (salt iv P : List Nat) (esplit dsplit : List (List Nat))
    (hS : 1 ≤ S) (hS32 : S + 16 < 4294967296)
    (hsalt : salt.length = SALT_LENGTH) (hiv : iv.length = IV_LENGTH)
    (he : esplit.flatten = P)
    (hd : createEncryptStreamRun A c.password c.keyData S salt iv esplit =
      .ok dsplit.flatten) :
    createDecryptStreamRun A c.password c.keyData dsplit = .ok P := by
  have hsalt16 : salt.length = 16 := hsalt
  have hiv12 : iv.length = 12 := hiv
  rw [createEncryptStreamRun_eq A c S salt iv esplit (by omega)] at hd
  have hdf : dsplit.flatten =
      createStreamHeader c.password.isSome S salt iv ++
        (mapWithIndex (encryptChunk A (credKey A c salt) iv) 0
          (chunksOf S esplit.flatten)).flatten :=
    (Except.ok.inj hd).symm
  have hheadpos : 0 < (createStreamHeader c.password.isSome S salt iv).length := by
    cases c with
    | pw p =>
      simp only [Cred.password, Option.isSome_some]
      rw [(createStreamHeader_length S salt iv hsalt16 hiv12).1]
      omega
    | kf k =>
      simp only [Cred.password, Option.isSome_none]
      rw [(createStreamHeader_length S salt iv hsalt16 hiv12).2]
      omega
  cases dsplit with
  | nil =>
    exfalso
    have := congrArg List.length hdf
    simp only [List.flatten_nil, List.length_nil, List.length_append] at this
    omega
  | cons d ds =>
    rw [createDecryptStreamRun_flatten A c.password c.keyData d ds]
    rw [List.flatten_cons] at hdf
    rw [hdf]
    subst he
    exact createDecryptStreamRun_valid A c S salt iv esplit.flatten hS
      (by
        intro ch hch
        have := chunksOf_mem_length S (by omega) esplit.flatten.length
          esplit.flatten le_rfl ch hch
        omega)
      hsalt16 hiv12

/-- C1 witness: the three-byte payload [1, 2, 3], keyfile credential,
chunk size 2, fed as two uneven fragments; the container is decrypted
from a different two-fragment split. -/
theorem C1_stream_roundtrip_witness :
    createDecryptStreamRun toyPrim (Cred.kf [5]).password (Cred.kf [5]).keyData
      [([18, 1, 2, 0, 0, 0, 0, 0, 0, 0, 0, 0, 0, 0, 0, 0, 0, 0, 18, 0] : List Nat), [0, 0, 1, 2, 24, 24, 24, 24, 24, 24, 24, 24, 24, 24, 24, 24, 24, 24, 24, 24, 17, 0, 0, 0, 3, 21, 21, 21, 21, 21, 21, 21, 21, 21, 21, 21, 21, 21, 21, 21, 21]] = .ok [1, 2, 3] :=
  C1_stream_roundtrip toyPrim (Cred.kf [5]) 2 (List.replicate 16 0)
    (List.replicate 12 0) [1, 2, 3] [[1], [2, 3]] [([18, 1, 2, 0, 0, 0, 0, 0, 0, 0, 0, 0, 0, 0, 0, 0, 0, 0, 18, 0] : List Nat), [0, 0, 1, 2, 24, 24, 24, 24, 24, 24, 24, 24, 24, 24, 24, 24, 24, 24, 24, 24, 17, 0, 0, 0, 3, 21, 21, 21, 21, 21, 21, 21, 21, 21, 21, 21, 21, 21, 21, 21, 21]]
    (by omega) (by norm_num) (by decide) (by decide) (by decide)
    (by
      simp [createEncryptStreamRun, encFeed, encTransform, encDrain, encFlush,
        encryptChunk, createStreamHeader, deriveChunkIV, setInto, leVal4,
        leBytes4, toyPrim, toyTag, Cred.password, Cred.keyData,
        ENCRYPTION_MARKER_PASSWORD_STREAM, ENCRYPTION_MARKER_KEYFILE_STREAM,
        STREAM_FORMAT_VERSION, List.replicate])

/-- Decrypting the mis-framed container of the C1 counterexample
(20-byte frame header whose 4-byte length prefix wrapped to 0): the
drain reads a zero-length chunk, whose AEAD verification fails, so the
stream errors with DECRYPTION_FAILED. -/
lemma C1ce_decrypt_aux (P0 : List Nat) (hPlen : P0.length = 4294967280) :
    createDecryptStreamRun toyPrim (Cred.kf [7]).password (Cred.kf [7]).keyData
        [(createStreamHeader false 4294967280 (List.replicate 16 0)
        (List.replicate 12 0)) ++
          ([0, 0, 0, 0] ++ toyPrim.enc [7] (deriveChunkIV (List.replicate 12 0) 0)
            P0)] =
      .error .DECRYPTION_FAILED := by
  have hivlen : (List.replicate 12 0 : List Nat).length = 12 := by simp
  have hsaltlen : (List.replicate 16 0 : List Nat).length = 16 := by simp
  have hctlen : (toyPrim.enc [7] (deriveChunkIV (List.replicate 12 0) 0) P0).length = 4294967296 := by
    rw [toyPrim.enc_length, hPlen]
  have hlen18 : (createStreamHeader false 4294967280 (List.replicate 16 0)
      (List.replicate 12 0)).length = 18 :=
    (createStreamHeader_length 4294967280 (List.replicate 16 0)
      (List.replicate 12 0) hsaltlen hivlen).2
  have hparse := (parseStreamHeader_create 4294967280 (List.replicate 16 0)
    (List.replicate 12 0) hsaltlen hivlen).2
  simp only [Cred.password, Cred.keyData]
  simp only [createDecryptStreamRun, decFeed, decTransform, initialDecState]
  simp only [Bool.false_eq_true, if_false, List.nil_append]
  simp only [decHeaderPhase]
  rw [if_neg (by
    simp only [List.length_append, hlen18]
    omega)]
  have hmark : ((createStreamHeader false 4294967280 (List.replicate 16 0)
      (List.replicate 12 0)) ++
      ([0, 0, 0, 0] ++ toyPrim.enc [7] (deriveChunkIV (List.replicate 12 0) 0) P0)).getD 0 0 =
      ENCRYPTION_MARKER_KEYFILE_STREAM := by
    rw [getD_append_left _ _ 0 (by omega)]
    simp [createStreamHeader, List.getD]
  rw [hmark]
  rw [show (if ENCRYPTION_MARKER_KEYFILE_STREAM =
      ENCRYPTION_MARKER_PASSWORD_STREAM then (34 : Nat) else 18) = 18 from by
    decide]
  rw [if_neg (by
    simp only [List.length_append, hlen18]
    omega)]
  rw [take_append_le _ _ 18 (by omega)]
  rw [show (18 : Nat) = (createStreamHeader false 4294967280 (List.replicate 16 0)
      (List.replicate 12 0)).length from hlen18.symm, List.take_length]
  rw [hparse]
  simp only
  rw [if_neg (by simp)]
  rw [if_neg (by simp)]
  simp only [Option.getD_some]
  rw [if_neg (by simp)]
  have hdrop18 : ((createStreamHeader false 4294967280 (List.replicate 16 0)
      (List.replicate 12 0)) ++
      ([0, 0, 0, 0] ++ toyPrim.enc [7] (deriveChunkIV (List.replicate 12 0) 0)
        P0)).drop 18 =
      [0, 0, 0, 0] ++ toyPrim.enc [7] (deriveChunkIV (List.replicate 12 0) 0)
        P0 := by
    rw [show (18 : Nat) = (createStreamHeader false 4294967280
      (List.replicate 16 0) (List.replicate 12 0)).length from hlen18.symm]
    exact List.drop_left _ _
  rw [hdrop18]
  simp only [decChunkPhase]
  have htake4 : (([0, 0, 0, 0] : List Nat) ++ toyPrim.enc [7] (deriveChunkIV (List.replicate 12 0) 0) P0).take 4 = [0, 0, 0, 0] :=
    List.take_left' rfl
  have hval0 : leVal4 ((([0, 0, 0, 0] : List Nat) ++ toyPrim.enc [7] (deriveChunkIV (List.replicate 12 0) 0) P0).take 4) = 0 := by
    rw [htake4]
    decide
  rw [decDrain_step toyPrim (toyPrim.importKey [7]) (List.replicate 12 0)
    ([0, 0, 0, 0] ++ toyPrim.enc [7] (deriveChunkIV (List.replicate 12 0) 0) P0) 0
    (by simp only [List.length_append]; omega)
    (by
      rw [hval0]
      simp only [List.length_append]
      omega)]
  rw [hval0]
  simp only [List.take_zero]
  simp [decryptChunk, toyPrim]


/-- C1 counterexample: the claim as stated — for every chunk size
S ≥ 1 — fails at S = 2^32 - 16.  A payload of exactly one full chunk of
that size encrypts to a frame whose ciphertext length is 2^32, which the
4-byte little-endian length prefix stores as 0 (setUint32 writes modulo
2^32); the decryptor then mis-frames the container (it reads a
zero-length chunk, whose AEAD verification fails), so the round trip
errors with DECRYPTION_FAILED instead of returning the payload. -/
theorem C1_counterexample :
    createEncryptStreamRun toyPrim (Cred.kf [7]).password (Cred.kf [7]).keyData
        4294967280 (List.replicate 16 0) (List.replicate 12 0)
        [List.replicate 4294967280 0] =
      .ok ((createStreamHeader false 4294967280 (List.replicate 16 0)
        (List.replicate 12 0)) ++
        ([0, 0, 0, 0] ++ toyPrim.enc [7] (deriveChunkIV (List.replicate 12 0) 0)
          (List.replicate 4294967280 0))) ∧
    createDecryptStreamRun toyPrim (Cred.kf [7]).password (Cred.kf [7]).keyData
        [(createStreamHeader false 4294967280 (List.replicate 16 0)
        (List.replicate 12 0)) ++
          ([0, 0, 0, 0] ++ toyPrim.enc [7] (deriveChunkIV (List.replicate 12 0) 0)
            (List.replicate 4294967280 0))] =
      .error .DECRYPTION_FAILED := by
  have hPlen : (List.replicate 4294967280 (0 : Nat)).length = 4294967280 :=
    List.length_replicate 4294967280 0
  generalize hgen : List.replicate 4294967280 (0 : Nat) = P0 at hPlen ⊢
  have hkey : credKey toyPrim (Cred.kf [7]) (List.replicate 16 0) = [7] := rfl
  have hctlen : (toyPrim.enc [7] (deriveChunkIV (List.replicate 12 0) 0) P0).length = 4294967296 := by
    rw [toyPrim.enc_length, hPlen]
  constructor
  · have henc := createEncryptStreamRun_eq toyPrim (Cred.kf [7]) 4294967280
      (List.replicate 16 0) (List.replicate 12 0) [P0] (by norm_num)
    rw [henc]
    have hP : ([P0] : List (List Nat)).flatten = P0 := by simp
    rw [hP]
    have hchunks : chunksOf 4294967280 P0 = [P0] := by
      rw [chunksOf_step 4294967280 P0 (by norm_num) (by rw [hPlen]; norm_num)]
      rw [List.take_of_length_le (le_of_eq hPlen)]
      rw [List.drop_eq_nil_of_le (le_of_eq hPlen)]
      rw [chunksOf_stop 4294967280 [] (by simp)]
    rw [hchunks]
    simp only [mapWithIndex, List.flatten_cons, List.flatten_nil, List.append_nil]
    rw [hkey]
    simp only [encryptChunk]
    rw [hctlen]
    rw [show leBytes4 4294967296 = [0, 0, 0, 0] from by norm_num [leBytes4]]
    simp only [Cred.password, Option.isSome_none]
  · exact C1ce_decrypt_aux P0 hPlen

end BrowserFileCrypto
